import Mathlib

/-!
Shallow embedding of the workflow-graph core of `extract_prompts.py`
(PromptExtract repository), together with theorems settling the frozen
claims about its specification.

Modelling conventions:
* JSON scalar values that flow through link ids, node ids and slot links
  are modelled by `LVal` (integer, string or null).  A Python `dict` key
  that may be absent is an `Option`; `none` means the key is missing.
* Python exceptions (`KeyError` on a failed dict lookup, `TypeError` on
  indexing a number, `IndexError`) are modelled with `Except String`.
* The two breadth-first loops and the recursive resolver are given an
  explicit fuel argument; the top-level wrappers pass a fuel that is
  proved sufficient (`bfsGenAux_isSome`, `helper_isSome`), so the
  fuel-exhaustion branch is unreachable and the wrappers compute exactly
  what the Python functions compute.
* `widgets_values` payloads are modelled by the nested type `WVal`
  (string, integer, list, null); JSON floats are abstracted to integers,
  which no claim depends on.
-/

/-- A JSON scalar as it appears in link ids, node ids and slot `link`
fields: an integer, a string, or null. -/
inductive LVal where
  | int (i : Int)
  | str (s : String)
  | null
deriving DecidableEq, Repr

/-- Python truthiness of an `LVal` (`0`, `""` and `None` are falsy). -/
def LVal.truthy : LVal → Bool
  | .int i => i ≠ 0
  | .str s => s ≠ ""
  | .null => false

/-- A `widgets_values` payload: a string, a number, a nested list of such,
or null.  (Floats are abstracted to integers.) -/
inductive WVal where
  | str (s : String)
  | num (i : Int)
  | list (l : List WVal)
  | null

/-- Python truthiness of a `WVal`. -/
def WVal.truthy : WVal → Bool
  | .str s => s ≠ ""
  | .num i => i ≠ 0
  | .list l => !l.isEmpty
  | .null => false

/-- Python `x[0]` on a `widgets_values` payload: the head of a list, the
first character of a string (as a 1-character string), a `TypeError` on a
number or null, an `IndexError` on an empty sequence. -/
def WVal.index0 : WVal → Except String WVal
  | .str s =>
    match s.data with
    | [] => .error "IndexError"
    | c :: _ => .ok (.str (String.mk [c]))
  | .list [] => .error "IndexError"
  | .list (x :: _) => .ok x
  | .num _ => .error "TypeError"
  | .null => .error "TypeError"

/-- An entry of a node's `inputs` list.  Each field records whether the
corresponding dict key is present (`Option`); a present `link` key whose
JSON value is `null` is `some LVal.null`. -/
structure InputSlot where
  name : Option String
  type : Option String
  link : Option LVal
deriving DecidableEq, Repr

/-- A workflow node.  `none` in a field means the dict key is missing;
`inputs` missing is identified with `[]` (the code always reads it with
default `[]`), and `widgets_values` keeps the missing/list distinction
because the code uses two different defaults for it. -/
structure Node where
  id : Option LVal
  type : Option String
  order : Option Int
  inputs : List InputSlot
  widgets_values : Option WVal

/-- The parsed graph document: a node list and a list of positional link
records (each a list of JSON scalars). -/
structure Workflow where
  nodes : List Node
  links : List (List LVal)

/-- Python `sub in s` on strings: substring containment. -/
def strIn (sub s : String) : Bool :=
  decide (sub.data <:+: s.data)

/-- Python `str.strip()` restricted to ASCII whitespace: drop whitespace
from both ends. -/
def pyStrip (s : String) : String :=
  String.mk ((((s.data.dropWhile Char.isWhitespace).reverse).dropWhile
    Char.isWhitespace).reverse)

/-- The value of a five-field link tuple `(src_id, src_slot, dst_id,
dst_slot, ltype)` stored in the link map. -/
structure LinkTuple where
  src_id : LVal
  src_slot : LVal
  dst_id : LVal
  dst_slot : LVal
  ltype : LVal
deriving DecidableEq, Repr

/-- Python dict lookup on an insertion-ordered association list: the value
of the last binding of the key (later insertions overwrite earlier ones). -/
def dictGet (m : List (LVal × LinkTuple)) (k : LVal) : Option LinkTuple :=
  (m.reverse.find? (fun p => decide (p.1 = k))).map (·.2)

/-- Embeds `build_link_map`: collect every link record with at least six
fields into an association list keyed by the record's first field. -/
def build_link_map (wf : Workflow) : List (LVal × LinkTuple) :=
  wf.links.foldl (fun m rec_ =>
    match rec_ with
    | lid :: a :: b :: c :: d :: t :: _ => m ++ [(lid, ⟨a, b, c, d, t⟩)]
    | _ => m) []

/-- Python `n.get("id")`: a missing key reads as null (Python `None`). -/
def Node.idv (n : Node) : LVal := n.id.getD .null

/-- Python `n.get("type", "")`. -/
def Node.typeD (n : Node) : String := n.type.getD ""

/-- Python `n.get("order", 0)`. -/
def Node.orderD (n : Node) : Int := n.order.getD 0

/-- Embeds `get_node_by_id`: first node whose `id` field (read with
Python `get`, so a missing key is `None`) equals the query. -/
def get_node_by_id (wf : Workflow) (node_id : LVal) : Option Node :=
  wf.nodes.find? (fun n => decide (n.idv = node_id))

/-- The image-save marker test of `find_highest_order_saveimage`:
`"SaveImage" in type or "Save Image" in type`. -/
def isSaveType (n : Node) : Bool :=
  strIn "SaveImage" n.typeD || strIn "Save Image" n.typeD

/-- Python `max(l, key=f)` given a first element and the rest: replaces the
running maximum only on a strictly greater key, so the first maximal
element wins. -/
def pymax (f : Node → Int) (c : Node) (rest : List Node) : Node :=
  rest.foldl (fun best n => if f n > f best then n else best) c

/-- Embeds `find_highest_order_saveimage`: among the nodes whose type
contains an image-save marker, the one with maximal `order` (missing
treated as 0), ties resolved to the first in node order; `none` when no
node matches. -/
def find_highest_order_saveimage (wf : Workflow) : Option Node :=
  match wf.nodes.filter isSaveType with
  | [] => none
  | c :: rest => some (pymax Node.orderD c rest)

/-- Embeds `find_input_link_id`: the `link` value of the first input slot
whose `name` equals the query and which carries a `link` key. -/
def find_input_link_id (node : Node) (name : String) : Option LVal :=
  (node.inputs.find? (fun inp =>
    decide (inp.name = some name) && inp.link.isSome)).bind (·.link)

/-- Generic skeleton of the two breadth-first upstream loops of the code:
pop the queue (FIFO), raise `KeyError` on a node without an `id` key, skip
nodes already seen, consult the stopping rule `check` (which may stop the
whole search with a result, raise, or decline), otherwise enqueue the
predecessors computed by `expand`.  `none` is fuel exhaustion; the
wrappers pass a fuel proved sufficient. -/
def bfsGenAux (check : Node → Except String (Option (Option Node)))
    (expand : Node → Except String (List Node)) :
    Nat → List Node → List LVal → Option (Except String (Option Node))
  | 0, _, _ => none
  | _ + 1, [], _ => some (.ok none)
  | fuel + 1, n :: q, seen =>
    match n.id with
    | none => some (.error "KeyError")
    | some v =>
      if v ∈ seen then bfsGenAux check expand fuel q seen
      else
        match check n with
        | .error e => some (.error e)
        | .ok (some r) => some (.ok r)
        | .ok none =>
          match expand n with
          | .error e => some (.error e)
          | .ok preds => bfsGenAux check expand fuel (q ++ preds) (v :: seen)

/-- The predecessor-collecting loop shared by both searches: for every
input slot accepted by `keep` (which always requires a present `link`
key), look the link id up in the link map (`KeyError` when absent) and
collect the source node when the registry has it, preserving slot order. -/
def expandLinks (wf : Workflow) (lm : List (LVal × LinkTuple))
    (keep : InputSlot → Bool) : List InputSlot → Except String (List Node)
  | [] => .ok []
  | inp :: rest =>
    if keep inp then
      match inp.link with
      | some l =>
        match dictGet lm l with
        | none => .error "KeyError"
        | some tup =>
          match get_node_by_id wf tup.src_id with
          | some p => (expandLinks wf lm keep rest).map (fun tail => p :: tail)
          | none => expandLinks wf lm keep rest
      | none => expandLinks wf lm keep rest
    else expandLinks wf lm keep rest

/-- Stopping rule of `bfs_upstream_to_positive_source`: at the first input
slot named "positive" that carries a `link` key, look the link up
(`KeyError` when dangling) and stop the search with the registry lookup of
the link's source id (which may itself be absent). -/
def posCheck (wf : Workflow) (n : Node) : Except String (Option (Option Node)) :=
  match n.inputs.find? (fun inp =>
      decide (inp.name = some "positive") && inp.link.isSome) with
  | none => .ok none
  | some inp =>
    match inp.link with
    | some l =>
      match dictGet (build_link_map wf) l with
      | none => .error "KeyError"
      | some tup => .ok (some (get_node_by_id wf tup.src_id))
    | none => .ok none

/-- Expansion rule of `bfs_upstream_to_positive_source`: follow every
input slot that carries a `link` key, regardless of its declared type. -/
def posExpand (wf : Workflow) (n : Node) : Except String (List Node) :=
  expandLinks wf (build_link_map wf) (fun inp => inp.link.isSome) n.inputs

/-- The number of distinct node ids available to a search started at
`start`: ids of the start node and of every workflow node. -/
def bfsIds (wf : Workflow) (start : Node) : List LVal :=
  ((start :: wf.nodes).filterMap Node.id).dedup

/-- An upper bound on how many predecessors one expansion step can
enqueue: the largest `inputs` length among the start node and all
workflow nodes. -/
def maxInputs (wf : Workflow) (start : Node) : Nat :=
  (start :: wf.nodes).foldl (fun m n => max m n.inputs.length) 0

/-- Fuel sufficient for either breadth-first search (proved sufficient in
`bfsGenAux_isSome`). -/
def bfsFuel (wf : Workflow) (start : Node) : Nat :=
  2 + (bfsIds wf start).length * (maxInputs wf start + 1)

/-- Embeds `bfs_upstream_to_positive_source`. -/
def bfs_upstream_to_positive_source (wf : Workflow) (start : Node) :
    Except String (Option Node) :=
  match bfsGenAux (posCheck wf) (posExpand wf) (bfsFuel wf start) [start] [] with
  | some r => r
  | none => .error "fuel-exhausted"

/-- Stopping rule of `find_upstream_clip_encode`: stop with the dequeued
node itself as soon as its type contains the text-encoder marker. -/
def clipCheck (n : Node) : Except String (Option (Option Node)) :=
  if strIn "CLIPTextEncode" n.typeD then .ok (some (some n)) else .ok none

/-- The slot-type allow-list of `find_upstream_clip_encode`. -/
def allowedClipType (inp : InputSlot) : Bool :=
  decide (inp.type = some "CONDITIONING") || decide (inp.type = some "CLIP") ||
    decide (inp.type = some "STRING") || decide (inp.type = some "any")

/-- Expansion rule of `find_upstream_clip_encode`: follow only linked
slots whose declared type is in the allow-list. -/
def clipExpand (wf : Workflow) (n : Node) : Except String (List Node) :=
  expandLinks wf (build_link_map wf)
    (fun inp => inp.link.isSome && allowedClipType inp) n.inputs

/-- Embeds `find_upstream_clip_encode`. -/
def find_upstream_clip_encode (wf : Workflow) (start : Node) :
    Except String (Option Node) :=
  match bfsGenAux clipCheck (clipExpand wf) (bfsFuel wf start) [start] [] with
  | some r => r
  | none => .error "fuel-exhausted"

mutual
/-- Embeds `flatten_strings` of `extract_string_value_recursive`: the
strings of a `widgets_values` payload in order, descending into nested
lists. -/
def flatten_strings : WVal → List String
  | .str s => [s]
  | .list l => flattenStringsList l
  | .num _ => []
  | .null => []

/-- List part of `flatten_strings`. -/
def flattenStringsList : List WVal → List String
  | [] => []
  | x :: xs => flatten_strings x ++ flattenStringsList xs
end

/-- Whether the first input slot named "text" (if any) carries a `link`
key — Python `bool(text_input and "link" in text_input)`.  The value of
the key, including null, is irrelevant. -/
def textLinked (n : Node) : Bool :=
  match n.inputs.find? (fun i => decide (i.name = some "text")) with
  | some i => i.link.isSome
  | none => false

/-- Rule 1 of the resolver (the CLIP-with-inline-text case): for a node
whose type contains the text-encoder marker and whose first "text" slot is
absent or unlinked, if `widgets_values` is truthy and its first element is
a string, return that element stripped.  Indexing a numeric payload
raises `TypeError`. -/
def rule1Step (n : Node) : Except String (Option String) :=
  if strIn "CLIPTextEncode" n.typeD then
    let wv := n.widgets_values.getD (.list [])
    if !textLinked n && wv.truthy then
      match wv.index0 with
      | .error e => .error e
      | .ok (.str s) => .ok (some (pyStrip s))
      | .ok _ => .ok none
    else .ok none
  else .ok none

/-- Python `max(l, key=len)` given a first element and the rest: first
maximal element wins. -/
def pymaxLen (c : String) (rest : List String) : String :=
  rest.foldl (fun best s => if s.length > best.length then s else best) c

/-- Rule 2 of the resolver: when `widgets_values` is present and truthy,
the longest non-whitespace-only flattened string, stripped. -/
def rule2Step (n : Node) : Option String :=
  match n.widgets_values with
  | none => none
  | some w =>
    if w.truthy then
      match (flatten_strings w).filter (fun s => pyStrip s ≠ "") with
      | [] => none
      | s :: rest => some (pyStrip (pymaxLen s rest))
    else none

/-- Python truthiness of the resolver's result (`if res:` / `if prompt:`):
a present, non-empty string. -/
def truthyRes : Option String → Bool
  | some s => s ≠ ""
  | none => false

/-- The sequential link-following loops of rules 3 and 4, parametrized
by the resolver one fuel level down (`hf`): for each slot in order, look
its link up (`KeyError` when dangling), recurse on the source node when
the registry has it, return the first truthy result, and thread the
visited set through failed branches as the Python set mutation does. -/
def followAux (wf : Workflow)
    (hf : Node → List LVal → Option (Except String (Option String × List LVal))) :
    List InputSlot → List LVal → Option (Except String (Option String × List LVal))
  | [], visited => some (.ok (none, visited))
  | inp :: rest, visited =>
    match inp.link with
    | none => followAux wf hf rest visited
    | some l =>
      match dictGet (build_link_map wf) l with
      | none => some (.error "KeyError")
      | some tup =>
        match get_node_by_id wf tup.src_id with
        | none => followAux wf hf rest visited
        | some pred =>
          match hf pred visited with
          | none => none
          | some (.error e) => some (.error e)
          | some (.ok (res, vis2)) =>
            if truthyRes res then some (.ok (res, vis2))
            else followAux wf hf rest vis2

/-- Embeds the inner `helper` of `extract_string_value_recursive`, with
the mutated `visited` set threaded explicitly: raise `KeyError` on a
missing `id` key, short-circuit an already-visited node to no value, then
try rule 1 (inline CLIP text), rule 2 (longest widget string), the "text"
input links, and the STRING-typed input links in that order.  `none` is
fuel exhaustion; the wrapper passes a fuel proved sufficient.  Written
with an explicit `Nat.rec` on the fuel so the definition reduces inside
the kernel. -/
def helper (wf : Workflow) : Nat → Node → List LVal →
    Option (Except String (Option String × List LVal)) :=
  Nat.rec (motive := fun _ => Node → List LVal →
      Option (Except String (Option String × List LVal)))
    (fun _ _ => none)
    (fun _fuel prev n visited =>
      match n.id with
      | none => some (.error "KeyError")
      | some v =>
        if v ∈ visited then some (.ok (none, visited))
        else
          let visited1 := v :: visited
          match rule1Step n with
          | .error e => some (.error e)
          | .ok (some s) => some (.ok (some s, visited1))
          | .ok none =>
            match rule2Step n with
            | some s => some (.ok (some s, visited1))
            | none =>
              match followAux wf prev
                  (n.inputs.filter (fun i =>
                    decide (i.name = some "text") && i.link.isSome)) visited1 with
              | none => none
              | some (.error e) => some (.error e)
              | some (.ok (some s, vis2)) => some (.ok (some s, vis2))
              | some (.ok (none, vis2)) =>
                followAux wf prev
                  (n.inputs.filter (fun i =>
                    decide (i.type = some "STRING") && i.link.isSome)) vis2)

/-- The slot loop at an explicit fuel level: the loops of rules 3 and 4
call the resolver back at this fuel, exactly as the Python loops call the
single mutually-recursive `helper`. -/
def followInputs (wf : Workflow) (fuel : Nat) :
    List InputSlot → List LVal →
      Option (Except String (Option String × List LVal)) :=
  followAux wf (helper wf fuel)

/-- Fuel sufficient for the resolver (proved sufficient in
`helper_isSome`). -/
def resolverFuel (wf : Workflow) : Nat :=
  ((wf.nodes.filterMap Node.id).dedup).length + 2

/-- Embeds `extract_string_value_recursive`. -/
def extract_string_value_recursive (wf : Workflow) (node : Node) :
    Except String (Option String) :=
  match helper wf (resolverFuel wf) node [] with
  | some (.ok (r, _)) => .ok r
  | some (.error e) => .error e
  | none => .error "fuel-exhausted"

/-- The per-document pipeline: the body of
`extract_final_positive_prompt_from_png` from the locator onward (the
image decoding and JSON parsing that precede it are I/O and are outside
the embedded core).  Errors raised anywhere inside propagate here. -/
def pipelineE (wf : Workflow) : Except String (Option String × Option String) :=
  match find_highest_order_saveimage wf with
  | none => .ok (none, some "no-saveimage")
  | some save =>
    match find_input_link_id save "images" with
    | none => .ok (none, some "no-saveimage-images-link")
    | some lv =>
      if !lv.truthy then .ok (none, some "no-saveimage-images-link")
      else
        match dictGet (build_link_map wf) lv with
        | none => .error "KeyError"
        | some tup =>
          match get_node_by_id wf tup.src_id with
          | none => .ok (none, some "no-start-from-saveimage")
          | some start =>
            match bfs_upstream_to_positive_source wf start with
            | .error e => .error e
            | .ok none => .ok (none, some "no-positive-found")
            | .ok (some pos_src) =>
              match find_upstream_clip_encode wf pos_src with
              | .error e => .error e
              | .ok none => .ok (none, some "no-clip-encode-upstream")
              | .ok (some clip_node) =>
                match extract_string_value_recursive wf clip_node with
                | .error e => .error e
                | .ok prompt =>
                  if truthyRes prompt then .ok (prompt, none)
                  else .ok (none, some "no-prompt-resolved")

/-- Embeds the per-document entry point with its surrounding
`try`/`except`: any fault raised inside the pipeline is converted into a
reported failure string prefixed with "error:". -/
def extract_final_positive_prompt_from_workflow (wf : Workflow) :
    Option String × Option String :=
  match pipelineE wf with
  | .ok r => r
  | .error e => (none, some ("error:" ++ e))

/-- Whether a slot's `link` key, when present, resolves in the link map
(an absent key is trivially fine). -/
def linkResolvable (wf : Workflow) (i : InputSlot) : Bool :=
  match i.link with
  | some l => (dictGet (build_link_map wf) l).isSome
  | none => true

/-- Well-formedness for the positive-source search: every reachable node
carries an id and every `link` key of its slots resolves in the link
table. -/
def wfOkPos (wf : Workflow) (start : Node) : Bool :=
  (start :: wf.nodes).all fun n =>
    n.id.isSome && n.inputs.all fun i => linkResolvable wf i

/-- Well-formedness for the text-encoder search: every reachable node
carries an id and every `link` key of its allow-listed slots resolves in
the link table. -/
def wfOkClip (wf : Workflow) (start : Node) : Bool :=
  (start :: wf.nodes).all fun n =>
    n.id.isSome && n.inputs.all fun i =>
      !allowedClipType i || linkResolvable wf i

/-- Modelled from the spec, 4.4: the stopping rule in the spec's words —
at a dequeued node, the first input slot named exactly "positive" with a
resolvable link stops the search with the registry lookup of the link's
source node. -/
def specPosCheck (wf : Workflow) (n : Node) : Except String (Option (Option Node)) :=
  match n.inputs.find? (fun inp =>
      decide (inp.name = some "positive") &&
        (match inp.link with
         | some l => (dictGet (build_link_map wf) l).isSome
         | none => false)) with
  | none => .ok none
  | some inp =>
    match inp.link with
    | some l =>
      match dictGet (build_link_map wf) l with
      | some tup => .ok (some (get_node_by_id wf tup.src_id))
      | none => .ok none
    | none => .ok none

/-- Modelled from the spec, 4.4: the expansion rule in the spec's words —
the source nodes of every linked input slot, regardless of declared type,
in slot order (unresolvable links and absent source nodes contribute
nothing). -/
def posSources (wf : Workflow) (n : Node) : List Node :=
  n.inputs.filterMap fun inp =>
    match inp.link with
    | some l =>
      match dictGet (build_link_map wf) l with
      | some tup => get_node_by_id wf tup.src_id
      | none => none
    | none => none

/-- The spec's expansion rule for 4.4, lifted into the skeleton's type. -/
def specPosExpand (wf : Workflow) (n : Node) : Except String (List Node) :=
  .ok (posSources wf n)

/-- Modelled from the spec, 4.4: the FIFO breadth-first search for the
node producing the first resolvable "positive" input, with a visited set
on node ids. -/
def specFindPositiveSource (wf : Workflow) (start : Node) : Option Node :=
  match bfsGenAux (specPosCheck wf) (specPosExpand wf) (bfsFuel wf start) [start] [] with
  | some (.ok r) => r
  | _ => none

/-- Modelled from the spec, 4.5: the stopping rule in the spec's words —
stop, before expanding, at a node whose type contains the text-encoder
marker, returning that node. -/
def specClipCheck (n : Node) : Except String (Option (Option Node)) :=
  if strIn "CLIPTextEncode" n.typeD then .ok (some (some n)) else .ok none

/-- Modelled from the spec, 4.5: the expansion rule in the spec's words —
the source nodes of the linked slots whose declared type is in the
allow-list; links of any other slot type are never followed. -/
def clipSources (wf : Workflow) (n : Node) : List Node :=
  n.inputs.filterMap fun inp =>
    if allowedClipType inp then
      match inp.link with
      | some l =>
        match dictGet (build_link_map wf) l with
        | some tup => get_node_by_id wf tup.src_id
        | none => none
      | none => none
    else none

/-- The spec's expansion rule for 4.5, lifted into the skeleton's type. -/
def specClipExpand (wf : Workflow) (n : Node) : Except String (List Node) :=
  .ok (clipSources wf n)

/-- Modelled from the spec, 4.5: the FIFO breadth-first search for the
first text-encoder node, expanding only through allow-listed slot types. -/
def specFindTextEncoder (wf : Workflow) (start : Node) : Option Node :=
  match bfsGenAux specClipCheck (specClipExpand wf) (bfsFuel wf start) [start] [] with
  | some (.ok r) => r
  | _ => none

/-- The distinct node ids of the workflow, bounding the growth of the
resolver's visited set. -/
def resolverIds (wf : Workflow) : List LVal :=
  (wf.nodes.filterMap Node.id).dedup

/-- How many workflow node ids are not yet in the visited set. -/
def unseenCount (wf : Workflow) (vis : List LVal) : Nat :=
  ((resolverIds wf).filter (fun x => decide (x ∉ vis))).length

/-- Truthy `widgets_values` payloads that `wv[0]` can index without a
`TypeError`: anything falsy, or a string or list. -/
def wvOk (n : Node) : Bool :=
  match n.widgets_values with
  | some w =>
    !w.truthy ||
      (match w with
       | .str _ => true
       | .list _ => true
       | _ => false)
  | none => true

/-- Well-formedness for the whole per-document pipeline: ids present, all
slot links resolvable, and widget payloads indexable. -/
def wfOkAll (wf : Workflow) (start : Node) : Bool :=
  wfOkPos wf start && (start :: wf.nodes).all wvOk

/-- Modelled from the spec, 4.3: the first element whose key is greatest
among all elements — the maximum with ties resolved to the earliest in
sequence order. -/
def firstArgmax (f : Node → Int) (l : List Node) : Option Node :=
  l.find? (fun n => l.all (fun m => decide (f m ≤ f n)))

/-- Modelled from the spec, 4.3: among the image-save candidates, the one
with the numerically highest order, ties to the first in the original
node sequence; absent when no candidate exists. -/
def specLocate (wf : Workflow) : Option Node :=
  firstArgmax Node.orderD (wf.nodes.filter isSaveType)

/-- One unfolding of the resolver with the rule-1 branch removed: what
the resolver computes when it treats the node's "text" slot as linked and
skips the inline-widget preference. -/
def topNoRule1 (wf : Workflow) (n : Node) : Except String (Option String) :=
  match n.id with
  | none => .error "KeyError"
  | some v =>
    match rule2Step n with
    | some s => .ok (some s)
    | none =>
      match followInputs wf ((resolverIds wf).length + 1)
          (n.inputs.filter (fun i =>
            decide (i.name = some "text") && i.link.isSome)) [v] with
      | none => .error "fuel-exhausted"
      | some (.error e) => .error e
      | some (.ok (some s, _)) => .ok (some s)
      | some (.ok (none, vis2)) =>
        match followInputs wf ((resolverIds wf).length + 1)
            (n.inputs.filter (fun i =>
              decide (i.type = some "STRING") && i.link.isSome)) vis2 with
        | none => .error "fuel-exhausted"
        | some (.error e) => .error e
        | some (.ok (r, _)) => .ok r

/-! ### Concrete workflows used by counterexamples and witnesses -/

/-- A string-producing helper node holding the literal "fallback". -/
def cexC1src : Node :=
  ⟨some (.int 2), some "ShowText", none, [], some (.list [.str "fallback"])⟩

/-- A text-encoder node whose "text" slot carries the dangling link id 99
and whose STRING-typed slot carries the resolvable link id 1. -/
def cexC1clip : Node :=
  ⟨some (.int 1), some "CLIPTextEncode", none,
    [⟨some "text", some "STRING", some (.int 99)⟩,
     ⟨some "str_in", some "STRING", some (.int 1)⟩], none⟩

/-- Workflow where rule 3 hits a dangling link although rule 4 could have
resolved "fallback". -/
def cexC1wf : Workflow :=
  ⟨[cexC1clip, cexC1src],
    [[.int 1, .int 2, .int 0, .int 1, .int 1, .str "STRING"]]⟩

/-- A save node whose "images" slot carries the dangling link id 7. -/
def cexC1save : Node :=
  ⟨some (.int 1), some "SaveImage", none,
    [⟨some "images", some "IMAGE", some (.int 7)⟩], none⟩

/-- Workflow whose pipeline raises at the save node's images link. -/
def cexC1pipeWf : Workflow := ⟨[cexC1save], []⟩

/-- A node whose "positive" slot carries the dangling link id 5. -/
def cexC2node : Node :=
  ⟨some (.int 1), none, none,
    [⟨some "positive", some "CONDITIONING", some (.int 5)⟩], none⟩

/-- Workflow on which the positive search raises. -/
def cexC2wf : Workflow := ⟨[cexC2node], []⟩

/-- A save node whose "images" slot carries the dangling link id 8. -/
def cexC2save : Node :=
  ⟨some (.int 3), some "Save Image", none,
    [⟨some "images", some "IMAGE", some (.int 8)⟩], none⟩

/-- Workflow whose pipeline raises at the save node's images link. -/
def cexC2pipeWf : Workflow := ⟨[cexC2save], []⟩

/-- A sampler whose "positive" slot resolves through link 1. -/
def witC2sampler : Node :=
  ⟨some (.int 1), some "KSampler", none,
    [⟨some "positive", some "CONDITIONING", some (.int 1)⟩], none⟩

/-- A text encoder with an inline prompt. -/
def witC2enc : Node :=
  ⟨some (.int 2), some "CLIPTextEncode", none, [],
    some (.list [.str "hello prompt"])⟩

/-- A well-formed two-node conditioning chain. -/
def witC2wf : Workflow :=
  ⟨[witC2sampler, witC2enc],
    [[.int 1, .int 2, .int 0, .int 1, .int 0, .str "CONDITIONING"]]⟩

/-- A text-encoder node with an unlinked "text" input and the single
widget literal of the spec's example. -/
def witC3node : Node :=
  ⟨some (.int 1), some "CLIPTextEncode", none, [],
    some (.list [.str "a cat, masterpiece"])⟩

/-- Workflow around `witC3node`. -/
def witC3wf : Workflow := ⟨[witC3node], []⟩

/-- A generic literal-bearing node with the two widget strings of the
spec's example. -/
def witC4node : Node :=
  ⟨some (.int 1), some "ShowText", none, [],
    some (.list [.str "neg", .str "a cat, highly detailed, 4k"])⟩

/-- Workflow around `witC4node`. -/
def witC4wf : Workflow := ⟨[witC4node], []⟩

/-- A start node with a resolvable "positive" link to node 5. -/
def witC5start : Node :=
  ⟨some (.int 3), some "FaceDetailer", none,
    [⟨some "positive", some "CONDITIONING", some (.int 4)⟩], none⟩

/-- The conditioning producer of `witC5start`. -/
def witC5enc : Node :=
  ⟨some (.int 5), some "CLIPTextEncode", none, [], some (.list [.str "w5"])⟩

/-- A well-formed workflow for the positive search. -/
def witC5wf : Workflow :=
  ⟨[witC5start, witC5enc],
    [[.int 4, .int 5, .int 0, .int 3, .int 0, .str "CONDITIONING"]]⟩

/-- A start node with only a dangling non-positive link, on which the
claimed "queue empties, return absent" behavior would apply. -/
def cexC5start : Node :=
  ⟨some (.int 1), some "VAEDecode", none,
    [⟨some "samples", some "LATENT", some (.int 9)⟩], none⟩

/-- Workflow on which the positive search raises instead of returning
absent. -/
def cexC5wf : Workflow := ⟨[cexC5start], []⟩

/-- A text-encoder node reachable through a CONDITIONING link. -/
def witC6clip : Node :=
  ⟨some (.int 7), some "CLIPTextEncodeSDXL", none, [],
    some (.list [.str "w6"])⟩

/-- A start node with a dangling MODEL-typed link (never followed) and a
resolvable CONDITIONING link to the encoder. -/
def witC6start : Node :=
  ⟨some (.int 6), some "KSampler", none,
    [⟨some "model", some "MODEL", some (.int 77)⟩,
     ⟨some "positive", some "CONDITIONING", some (.int 11)⟩], none⟩

/-- A workflow well-formed for the text-encoder search although a
disallowed-type link dangles. -/
def witC6wf : Workflow :=
  ⟨[witC6start, witC6clip],
    [[.int 11, .int 7, .int 0, .int 6, .int 1, .str "CONDITIONING"]]⟩

/-- A start node whose allow-listed CONDITIONING slot carries the
dangling link id 9. -/
def cexC6start : Node :=
  ⟨some (.int 1), some "Reroute", none,
    [⟨some "conditioning", some "CONDITIONING", some (.int 9)⟩], none⟩

/-- Workflow on which the text-encoder search raises instead of
returning absent. -/
def cexC6wf : Workflow := ⟨[cexC6start], []⟩

/-- An image-save node with order 5, first of the tie. -/
def witC7a : Node := ⟨some (.int 1), some "SaveImage", some 5, [], none⟩

/-- An image-save node with order 5, second of the tie. -/
def witC7b : Node := ⟨some (.int 2), some "Save Image Extended", some 5, [], none⟩

/-- An image-save node with the lower order 2. -/
def witC7c : Node := ⟨some (.int 3), some "SaveImageX", some 2, [], none⟩

/-- Workflow with three image-save candidates, two tied on order. -/
def witC7wf : Workflow := ⟨[witC7c, witC7a, witC7b], []⟩

/-- One half of a two-node cycle. -/
def witC8a : Node :=
  ⟨some (.int 1), some "A", none,
    [⟨some "x", some "CONDITIONING", some (.int 1)⟩], none⟩

/-- Other half of a two-node cycle. -/
def witC8b : Node :=
  ⟨some (.int 2), some "B", none,
    [⟨some "y", some "CONDITIONING", some (.int 2)⟩], none⟩

/-- A cyclic workflow: node 1 feeds node 2 and node 2 feeds node 1. -/
def witC8wf : Workflow :=
  ⟨[witC8a, witC8b],
    [[.int 1, .int 2, .int 0, .int 1, .int 0, .str "CONDITIONING"],
     [.int 2, .int 1, .int 0, .int 2, .int 0, .str "CONDITIONING"]]⟩

/-- A text-encoder node whose "text" slot carries a `link` key with the
JSON value null, with a short and a long widget string. -/
def witC10node : Node :=
  ⟨some (.int 1), some "CLIPTextEncode", none,
    [⟨some "text", some "STRING", some .null⟩],
    some (.list [.str "short", .str "longerstring"])⟩

/-- Workflow around `witC10node`. -/
def witC10wf : Workflow := ⟨[witC10node], []⟩
/-! ### Unfolding equations for the fuel-indexed resolver -/

/-- The resolver at zero fuel. -/
theorem helper_zero (wf : Workflow) (n : Node) (vis : List LVal) :
    helper wf 0 n vis = none := rfl

/-- One unfolding of the resolver. -/
theorem helper_succ (wf : Workflow) (fuel : Nat) (n : Node) (vis : List LVal) :
    helper wf (fuel + 1) n vis =
      (match n.id with
      | none => some (.error "KeyError")
      | some v =>
        if v ∈ vis then some (.ok (none, vis))
        else
          match rule1Step n with
          | .error e => some (.error e)
          | .ok (some s) => some (.ok (some s, v :: vis))
          | .ok none =>
            match rule2Step n with
            | some s => some (.ok (some s, v :: vis))
            | none =>
              match followInputs wf fuel
                  (n.inputs.filter (fun i =>
                    decide (i.name = some "text") && i.link.isSome)) (v :: vis) with
              | none => none
              | some (.error e) => some (.error e)
              | some (.ok (some s, vis2)) => some (.ok (some s, vis2))
              | some (.ok (none, vis2)) =>
                followInputs wf fuel
                  (n.inputs.filter (fun i =>
                    decide (i.type = some "STRING") && i.link.isSome)) vis2) := rfl

/-- The slot loop on an empty slot list. -/
theorem followInputs_nil (wf : Workflow) (fuel : Nat) (vis : List LVal) :
    followInputs wf fuel [] vis = some (.ok (none, vis)) := rfl

/-- One unfolding of the slot loop. -/
theorem followInputs_cons (wf : Workflow) (fuel : Nat) (inp : InputSlot)
    (rest : List InputSlot) (vis : List LVal) :
    followInputs wf fuel (inp :: rest) vis =
      (match inp.link with
      | none => followInputs wf fuel rest vis
      | some l =>
        match dictGet (build_link_map wf) l with
        | none => some (.error "KeyError")
        | some tup =>
          match get_node_by_id wf tup.src_id with
          | none => followInputs wf fuel rest vis
          | some pred =>
            match helper wf fuel pred vis with
            | none => none
            | some (.error e) => some (.error e)
            | some (.ok (res, vis2)) =>
              if truthyRes res then some (.ok (res, vis2))
              else followInputs wf fuel rest vis2) := rfl

/-! ### General list lemmas -/

/-- `find?` only depends on the predicate's values on the list. -/
theorem find?_congr_mem {α : Type} {p q : α → Bool} :
    ∀ l : List α, (∀ x ∈ l, p x = q x) → l.find? p = l.find? q
  | [], _ => rfl
  | a :: l, h => by
    have ha := h a (List.mem_cons_self a l)
    simp only [List.find?_cons, ha]
    cases hq : q a with
    | true => rfl
    | false => exact find?_congr_mem l fun x hx => h x (List.mem_cons_of_mem _ hx)

/-- Filtering drops length strictly when some member fails the predicate. -/
theorem length_filter_lt_of_mem {α : Type} {q : α → Bool} {x : α} :
    ∀ {l : List α}, x ∈ l → q x = false → (l.filter q).length < l.length := by
  intro l
  induction l with
  | nil => intro h; cases h
  | cons a t ih =>
    intro hm hqx
    rcases List.mem_cons.mp hm with rfl | hmt
    · rw [List.filter_cons, hqx]
      exact Nat.lt_succ_of_le (List.length_filter_le _ _)
    · rw [List.filter_cons]
      cases hqa : q a with
      | true => simpa using Nat.succ_lt_succ (ih hmt hqx)
      | false => exact Nat.lt_succ_of_lt (ih hmt hqx)

/-- Marking one more id as seen strictly shrinks the unseen count. -/
theorem unseen_count_lt {ids seen : List LVal} {v : LVal}
    (hv : v ∈ ids) (hns : v ∉ seen) :
    (ids.filter (fun x => decide (x ∉ v :: seen))).length <
      (ids.filter (fun x => decide (x ∉ seen))).length := by
  have h1 : ids.filter (fun x => decide (x ∉ v :: seen)) =
      (ids.filter (fun x => decide (x ∉ seen))).filter (fun x => decide (x ≠ v)) := by
    rw [List.filter_filter]
    apply List.filter_congr
    intro x _
    by_cases h : x = v <;> by_cases h2 : x ∈ seen <;>
      simp [h, h2, List.mem_cons]
  rw [h1]
  apply length_filter_lt_of_mem (x := v)
  · rw [List.mem_filter]
    exact ⟨hv, by simpa using hns⟩
  · simp

/-- The initial value bounds a running maximum from below. -/
theorem foldl_max_init_le (f : Node → Nat) :
    ∀ (l : List Node) (i : Nat), i ≤ l.foldl (fun m n => max m (f n)) i
  | [], _ => le_refl _
  | a :: t, i =>
    le_trans (Nat.le_max_left i (f a)) (foldl_max_init_le f t (max i (f a)))

/-- Every member's key bounds a running maximum from below. -/
theorem le_foldl_max (f : Node → Nat) :
    ∀ (l : List Node) (i : Nat) (x : Node), x ∈ l →
      f x ≤ l.foldl (fun m n => max m (f n)) i := by
  intro l
  induction l with
  | nil => intro i x h; cases h
  | cons a t ih =>
    intro i x hm
    rcases List.mem_cons.mp hm with rfl | hmt
    · exact le_trans (Nat.le_max_right i (f x)) (foldl_max_init_le f t _)
    · exact ih _ x hmt

/-- Any node reachable by a search has inputs bounded by `maxInputs`. -/
theorem inputs_le_maxInputs {wf : Workflow} {start : Node} {n : Node}
    (hn : n = start ∨ n ∈ wf.nodes) :
    n.inputs.length ≤ maxInputs wf start := by
  apply le_foldl_max (fun n => n.inputs.length) (start :: wf.nodes) 0
  rcases hn with rfl | h
  · exact List.mem_cons_self _ _
  · exact List.mem_cons_of_mem _ h

/-- The id of any node reachable by a search is in `bfsIds`. -/
theorem idv_mem_bfsIds {wf : Workflow} {start : Node} {n : Node} {v : LVal}
    (hn : n = start ∨ n ∈ wf.nodes) (hid : n.id = some v) :
    v ∈ bfsIds wf start := by
  rw [bfsIds, List.mem_dedup]
  apply List.mem_filterMap.mpr
  refine ⟨n, ?_, hid⟩
  rcases hn with rfl | h
  · exact List.mem_cons_self _ _
  · exact List.mem_cons_of_mem _ h

/-- `expandLinks` produces at most one node per slot, and only nodes of
the workflow. -/
theorem expandLinks_ok {wf : Workflow} {lm : List (LVal × LinkTuple)}
    {keep : InputSlot → Bool} :
    ∀ {slots : List InputSlot} {l : List Node},
      expandLinks wf lm keep slots = .ok l →
      l.length ≤ slots.length ∧ ∀ m ∈ l, m ∈ wf.nodes := by
  intro slots
  induction slots with
  | nil =>
    intro l h
    simp only [expandLinks] at h
    cases h
    exact ⟨Nat.le_refl _, by intro m hm; cases hm⟩
  | cons inp rest ih =>
    intro l h
    simp only [expandLinks] at h
    split at h
    · split at h
      · split at h
        · cases h
        · split at h
          · rename_i p hp
            cases hrest : expandLinks wf lm keep rest with
            | error e => rw [hrest] at h; cases h
            | ok tail =>
              rw [hrest] at h
              simp only [Except.map] at h
              cases h
              obtain ⟨h1, h2⟩ := ih hrest
              constructor
              · simpa using Nat.succ_le_succ h1
              · intro m hm
                rcases List.mem_cons.mp hm with rfl | hmt
                · exact List.mem_of_find?_eq_some hp
                · exact h2 m hmt
          · obtain ⟨h1, h2⟩ := ih h
            exact ⟨Nat.le_succ_of_le h1, h2⟩
      · obtain ⟨h1, h2⟩ := ih h
        exact ⟨Nat.le_succ_of_le h1, h2⟩
    · obtain ⟨h1, h2⟩ := ih h
      exact ⟨Nat.le_succ_of_le h1, h2⟩

/-- Fuel sufficiency for the breadth-first skeleton: with fuel exceeding
the queue length plus (unseen ids) times (max inputs + 1), the search
cannot exhaust its fuel, for any stopping rule and any expansion rule
that emits at most `maxInputs` workflow nodes per step. -/
theorem bfsGenAux_isSome (wf : Workflow) (start : Node)
    (check : Node → Except String (Option (Option Node)))
    (expand : Node → Except String (List Node))
    (hexp : ∀ n, (n = start ∨ n ∈ wf.nodes) → ∀ l, expand n = .ok l →
      l.length ≤ maxInputs wf start ∧ ∀ m ∈ l, m ∈ wf.nodes) :
    ∀ (fuel : Nat) (q : List Node) (seen : List LVal),
      (∀ x ∈ q, x = start ∨ x ∈ wf.nodes) →
      q.length + ((bfsIds wf start).filter
        (fun x => decide (x ∉ seen))).length * (maxInputs wf start + 1) < fuel →
      (bfsGenAux check expand fuel q seen).isSome := by
  intro fuel
  induction fuel with
  | zero => intro q seen _ h; omega
  | succ f ih =>
    intro q seen hq hΦ
    match q with
    | [] => simp [bfsGenAux]
    | n :: q' =>
      have hn : n = start ∨ n ∈ wf.nodes := hq n (List.mem_cons_self _ _)
      have hq' : ∀ x ∈ q', x = start ∨ x ∈ wf.nodes :=
        fun x hx => hq x (List.mem_cons_of_mem _ hx)
      simp only [bfsGenAux]
      cases hid : n.id with
      | none => simp
      | some v =>
        simp only []
        by_cases hseen : v ∈ seen
        · rw [if_pos hseen]
          apply ih q' seen hq'
          simp only [List.length_cons] at hΦ
          omega
        · rw [if_neg hseen]
          cases check n with
          | error e => simp
          | ok o =>
            cases o with
            | some r => simp
            | none =>
              simp only []
              cases hex : expand n with
              | error e => simp
              | ok preds =>
                obtain ⟨hlen, hmem⟩ := hexp n hn preds hex
                apply ih (q' ++ preds) (v :: seen)
                · intro x hx
                  rcases List.mem_append.mp hx with h | h
                  · exact hq' x h
                  · exact Or.inr (hmem x h)
                · have hv : v ∈ bfsIds wf start := idv_mem_bfsIds hn hid
                  have hlt := unseen_count_lt hv hseen
                  set M := maxInputs wf start
                  set U := ((bfsIds wf start).filter
                    (fun x => decide (x ∉ seen))).length
                  set U' := ((bfsIds wf start).filter
                    (fun x => decide (x ∉ v :: seen))).length
                  have hmul : U' * (M + 1) + (M + 1) ≤ U * (M + 1) := by
                    have : (U' + 1) * (M + 1) ≤ U * (M + 1) :=
                      Nat.mul_le_mul_right _ (by omega)
                    calc U' * (M + 1) + (M + 1) = (U' + 1) * (M + 1) := by ring
                      _ ≤ U * (M + 1) := this
                  simp only [List.length_append, List.length_cons] at hΦ ⊢
                  omega

/-- The breadth-first skeleton only depends on the stopping and expansion
rules at the start node and workflow nodes, provided expansion stays
inside the workflow. -/
theorem bfsGenAux_congr (wf : Workflow) (start : Node)
    {c1 c2 : Node → Except String (Option (Option Node))}
    {e1 e2 : Node → Except String (List Node)}
    (hc : ∀ n, (n = start ∨ n ∈ wf.nodes) → c1 n = c2 n)
    (he : ∀ n, (n = start ∨ n ∈ wf.nodes) → e1 n = e2 n)
    (hclosed : ∀ n, (n = start ∨ n ∈ wf.nodes) → ∀ l, e1 n = .ok l →
      ∀ m ∈ l, m ∈ wf.nodes) :
    ∀ (fuel : Nat) (q : List Node) (seen : List LVal),
      (∀ x ∈ q, x = start ∨ x ∈ wf.nodes) →
      bfsGenAux c1 e1 fuel q seen = bfsGenAux c2 e2 fuel q seen := by
  intro fuel
  induction fuel with
  | zero => intro q seen _; rfl
  | succ f ih =>
    intro q seen hq
    match q with
    | [] => rfl
    | n :: q' =>
      have hn : n = start ∨ n ∈ wf.nodes := hq n (List.mem_cons_self _ _)
      have hq' : ∀ x ∈ q', x = start ∨ x ∈ wf.nodes :=
        fun x hx => hq x (List.mem_cons_of_mem _ hx)
      simp only [bfsGenAux]
      cases hid : n.id with
      | none => rfl
      | some v =>
        by_cases hseen : v ∈ seen
        · simp only [if_pos hseen]
          exact ih q' seen hq'
        · simp only [if_neg hseen]
          rw [← hc n hn]
          cases hck : c1 n with
          | error e => rfl
          | ok o =>
            cases o with
            | some r => rfl
            | none =>
              simp only []
              rw [← he n hn]
              cases hex : e1 n with
              | error e => rfl
              | ok preds =>
                apply ih (q' ++ preds) (v :: seen)
                intro x hx
                rcases List.mem_append.mp hx with h | h
                · exact hq' x h
                · exact Or.inr (hclosed n hn preds hex x h)

/-- The breadth-first skeleton cannot raise when every reachable node has
an id and the stopping and expansion rules cannot raise. -/
theorem bfsGenAux_no_error (wf : Workflow) (start : Node)
    {check : Node → Except String (Option (Option Node))}
    {expand : Node → Except String (List Node)}
    (hids : ∀ n, (n = start ∨ n ∈ wf.nodes) → n.id.isSome = true)
    (hc : ∀ n, (n = start ∨ n ∈ wf.nodes) → ∀ e, check n ≠ .error e)
    (he : ∀ n, (n = start ∨ n ∈ wf.nodes) → ∀ e, expand n ≠ .error e)
    (hclosed : ∀ n, (n = start ∨ n ∈ wf.nodes) → ∀ l, expand n = .ok l →
      ∀ m ∈ l, m ∈ wf.nodes) :
    ∀ (fuel : Nat) (q : List Node) (seen : List LVal),
      (∀ x ∈ q, x = start ∨ x ∈ wf.nodes) →
      ∀ e, bfsGenAux check expand fuel q seen ≠ some (.error e) := by
  intro fuel
  induction fuel with
  | zero => intro q seen _ e h; cases h
  | succ f ih =>
    intro q seen hq e
    match q with
    | [] => simp [bfsGenAux]
    | n :: q' =>
      have hn : n = start ∨ n ∈ wf.nodes := hq n (List.mem_cons_self _ _)
      have hq' : ∀ x ∈ q', x = start ∨ x ∈ wf.nodes :=
        fun x hx => hq x (List.mem_cons_of_mem _ hx)
      simp only [bfsGenAux]
      cases hid : n.id with
      | none =>
        have := hids n hn
        rw [hid] at this
        cases this
      | some v =>
        by_cases hseen : v ∈ seen
        · simp only [if_pos hseen]
          exact ih q' seen hq' e
        · simp only [if_neg hseen]
          cases hck : check n with
          | error e2 => exact absurd hck (hc n hn e2)
          | ok o =>
            cases o with
            | some r => simp
            | none =>
              simp only []
              cases hex : expand n with
              | error e2 => exact absurd hex (he n hn e2)
              | ok preds =>
                apply ih (q' ++ preds) (v :: seen)
                intro x hx
                rcases List.mem_append.mp hx with h | h
                · exact hq' x h
                · exact Or.inr (hclosed n hn preds hex x h)


/-- When every kept slot's link resolves, `expandLinks` cannot raise and
collects exactly the existing source nodes of the kept slots. -/
theorem expandLinks_eq_ok {wf : Workflow} {lm : List (LVal × LinkTuple)}
    {keep : InputSlot → Bool} :
    ∀ {slots : List InputSlot},
      (∀ inp ∈ slots, keep inp = true → ∀ l, inp.link = some l →
        (dictGet lm l).isSome = true) →
      expandLinks wf lm keep slots = .ok (slots.filterMap fun inp =>
        if keep inp then
          match inp.link with
          | some l =>
            match dictGet lm l with
            | some tup => get_node_by_id wf tup.src_id
            | none => none
          | none => none
        else none) := by
  intro slots
  induction slots with
  | nil => intro _; rfl
  | cons inp rest ih =>
    intro h
    have hrest := fun i hi => h i (List.mem_cons_of_mem _ hi)
    have hinp := h inp (List.mem_cons_self _ _)
    simp only [expandLinks, List.filterMap_cons]
    by_cases hk : keep inp = true
    · rw [if_pos hk, if_pos hk]
      cases hl : inp.link with
      | none => exact ih hrest
      | some l =>
        have hres := hinp hk l hl
        rw [Option.isSome_iff_exists] at hres
        obtain ⟨tup, hd⟩ := hres
        simp only []
        rw [hd]
        simp only []
        cases hg : get_node_by_id wf tup.src_id with
        | none => exact ih hrest
        | some p =>
          rw [ih hrest]
          rfl
    · rw [if_neg hk, if_neg hk]
      exact ih hrest

/-- Everything `posSources` emits is a workflow node. -/
theorem posSources_subset {wf : Workflow} {n : Node} :
    ∀ m ∈ posSources wf n, m ∈ wf.nodes := by
  intro m hm
  obtain ⟨inp, _, hb⟩ := List.mem_filterMap.mp hm
  cases hl : inp.link with
  | none => rw [hl] at hb; cases hb
  | some l =>
    rw [hl] at hb
    simp only [] at hb
    cases hd : dictGet (build_link_map wf) l with
    | none => rw [hd] at hb; cases hb
    | some tup =>
      rw [hd] at hb
      simp only [] at hb
      exact List.mem_of_find?_eq_some hb

/-- Everything `clipSources` emits is a workflow node. -/
theorem clipSources_subset {wf : Workflow} {n : Node} :
    ∀ m ∈ clipSources wf n, m ∈ wf.nodes := by
  intro m hm
  obtain ⟨inp, _, hb⟩ := List.mem_filterMap.mp hm
  by_cases ha : allowedClipType inp = true
  · rw [if_pos ha] at hb
    cases hl : inp.link with
    | none => rw [hl] at hb; cases hb
    | some l =>
      rw [hl] at hb
      simp only [] at hb
      cases hd : dictGet (build_link_map wf) l with
      | none => rw [hd] at hb; cases hb
      | some tup =>
        rw [hd] at hb
        simp only [] at hb
        exact List.mem_of_find?_eq_some hb
  · rw [if_neg ha] at hb; cases hb

/-- Under resolvable links, the code's positive expansion equals the
spec's. -/
theorem posExpand_eq {wf : Workflow} {n : Node}
    (h : ∀ i ∈ n.inputs, linkResolvable wf i = true) :
    posExpand wf n = specPosExpand wf n := by
  rw [posExpand, specPosExpand, posSources]
  rw [expandLinks_eq_ok (fun i hi _ l hl => by
    have h2 := h i hi
    rw [linkResolvable] at h2
    rw [hl] at h2
    exact h2)]
  congr 1
  apply List.filterMap_congr
  intro inp _
  cases hl : inp.link <;> simp [hl]

/-- Under resolvable allow-listed links, the code's restricted expansion
equals the spec's. -/
theorem clipExpand_eq {wf : Workflow} {n : Node}
    (h : ∀ i ∈ n.inputs, (!allowedClipType i || linkResolvable wf i) = true) :
    clipExpand wf n = specClipExpand wf n := by
  rw [clipExpand, specClipExpand, clipSources]
  rw [expandLinks_eq_ok (fun i hi hk l hl => by
    have h2 := h i hi
    rw [Bool.or_eq_true, Bool.not_eq_true'] at h2
    rw [Bool.and_eq_true] at hk
    rcases h2 with ha | hr
    · rw [ha] at hk; cases hk.2
    · rw [linkResolvable] at hr; rw [hl] at hr; exact hr)]
  congr 1
  apply List.filterMap_congr
  intro inp _
  cases hl : inp.link <;> cases ha : allowedClipType inp <;> simp [hl, ha]

/-- Under resolvable links, the code's positive stopping rule equals the
spec's. -/
theorem posCheck_eq {wf : Workflow} {n : Node}
    (h : ∀ i ∈ n.inputs, linkResolvable wf i = true) :
    posCheck wf n = specPosCheck wf n := by
  rw [posCheck, specPosCheck]
  have hfind : n.inputs.find? (fun inp =>
      decide (inp.name = some "positive") && inp.link.isSome) =
    n.inputs.find? (fun inp =>
      decide (inp.name = some "positive") &&
        (match inp.link with
         | some l => (dictGet (build_link_map wf) l).isSome
         | none => false)) := by
    apply find?_congr_mem
    intro i hi
    have h2 := h i hi
    rw [linkResolvable] at h2
    cases hl : i.link with
    | none => simp
    | some l =>
      rw [hl] at h2
      simp only [] at h2
      simp [h2]
  rw [hfind]
  cases hf : n.inputs.find? (fun inp =>
      decide (inp.name = some "positive") &&
        (match inp.link with
         | some l => (dictGet (build_link_map wf) l).isSome
         | none => false)) with
  | none => rfl
  | some inp =>
    have hp := List.find?_some hf
    rw [Bool.and_eq_true] at hp
    cases hl : inp.link with
    | none => rw [hl] at hp; simp at hp
    | some l =>
      rw [hl] at hp
      simp only [] at hp
      have hd := hp.2
      rw [Option.isSome_iff_exists] at hd
      obtain ⟨tup, hd⟩ := hd
      simp only []
      rw [hl]
      simp only []
      rw [hd]

/-- The spec's positive stopping rule never raises. -/
theorem specPosCheck_no_error {wf : Workflow} {n : Node} :
    ∀ e, specPosCheck wf n ≠ .error e := by
  intro e
  rw [specPosCheck]
  cases hf : n.inputs.find? (fun inp =>
      decide (inp.name = some "positive") &&
        (match inp.link with
         | some l => (dictGet (build_link_map wf) l).isSome
         | none => false)) with
  | none => simp
  | some inp =>
    simp only []
    cases hl : inp.link with
    | none => simp
    | some l =>
      simp only []
      cases hd : dictGet (build_link_map wf) l with
      | none => simp
      | some tup => simp

/-- Unpacking `wfOkPos`. -/
theorem wfOkPos_spec {wf : Workflow} {start : Node}
    (h : wfOkPos wf start = true) :
    ∀ n, (n = start ∨ n ∈ wf.nodes) →
      n.id.isSome = true ∧ ∀ i ∈ n.inputs, linkResolvable wf i = true := by
  rw [wfOkPos, List.all_eq_true] at h
  intro n hn
  have hmem : n ∈ start :: wf.nodes := by
    rcases hn with rfl | h2
    · exact List.mem_cons_self _ _
    · exact List.mem_cons_of_mem _ h2
  have h2 := h n hmem
  rw [Bool.and_eq_true, List.all_eq_true] at h2
  exact ⟨h2.1, h2.2⟩

/-- Unpacking `wfOkClip`. -/
theorem wfOkClip_spec {wf : Workflow} {start : Node}
    (h : wfOkClip wf start = true) :
    ∀ n, (n = start ∨ n ∈ wf.nodes) →
      n.id.isSome = true ∧
        ∀ i ∈ n.inputs, (!allowedClipType i || linkResolvable wf i) = true := by
  rw [wfOkClip, List.all_eq_true] at h
  intro n hn
  have hmem : n ∈ start :: wf.nodes := by
    rcases hn with rfl | h2
    · exact List.mem_cons_self _ _
    · exact List.mem_cons_of_mem _ h2
  have h2 := h n hmem
  rw [Bool.and_eq_true, List.all_eq_true] at h2
  exact ⟨h2.1, h2.2⟩

/-- The positive expansion satisfies the size and closure requirements of
the fuel bound. -/
theorem posExpand_hexp (wf : Workflow) (start : Node) :
    ∀ n, (n = start ∨ n ∈ wf.nodes) → ∀ l, posExpand wf n = .ok l →
      l.length ≤ maxInputs wf start ∧ ∀ m ∈ l, m ∈ wf.nodes := by
  intro n hn l hok
  obtain ⟨h1, h2⟩ := expandLinks_ok hok
  exact ⟨le_trans h1 (inputs_le_maxInputs hn), h2⟩

/-- The restricted expansion satisfies the size and closure requirements
of the fuel bound. -/
theorem clipExpand_hexp (wf : Workflow) (start : Node) :
    ∀ n, (n = start ∨ n ∈ wf.nodes) → ∀ l, clipExpand wf n = .ok l →
      l.length ≤ maxInputs wf start ∧ ∀ m ∈ l, m ∈ wf.nodes := by
  intro n hn l hok
  obtain ⟨h1, h2⟩ := expandLinks_ok hok
  exact ⟨le_trans h1 (inputs_le_maxInputs hn), h2⟩

/-- A fresh search's unseen count is the whole id list. -/
theorem filter_not_mem_nil (ids : List LVal) :
    ids.filter (fun x => decide (x ∉ ([] : List LVal))) = ids := by
  apply List.filter_eq_self.mpr
  intro a _
  simp

/-- The positive search never exhausts its fuel. -/
theorem bfsPos_aux_isSome (wf : Workflow) (start : Node) :
    (bfsGenAux (posCheck wf) (posExpand wf) (bfsFuel wf start) [start] []).isSome := by
  apply bfsGenAux_isSome wf start _ _ (posExpand_hexp wf start)
  · intro x hx
    rw [List.mem_singleton] at hx
    exact Or.inl hx
  · rw [filter_not_mem_nil, bfsFuel]
    simp only [List.length_singleton]
    omega

/-- The text-encoder search never exhausts its fuel. -/
theorem bfsClip_aux_isSome (wf : Workflow) (start : Node) :
    (bfsGenAux clipCheck (clipExpand wf) (bfsFuel wf start) [start] []).isSome := by
  apply bfsGenAux_isSome wf start _ _ (clipExpand_hexp wf start)
  · intro x hx
    rw [List.mem_singleton] at hx
    exact Or.inl hx
  · rw [filter_not_mem_nil, bfsFuel]
    simp only [List.length_singleton]
    omega

/-- C5 (amended): provided every reachable node carries an id and every
`link` key of its input slots resolves in the link table, the Upstream
Conditioning Search is a FIFO breadth-first traversal backward over input
links that, at the first dequeued node having an input slot named exactly
"positive" with a resolvable link, returns the registry lookup of the
source node of that link (not the dequeued node itself), and returns
absent when the queue empties without encountering such a slot — stated
as equality with the transcription `specFindPositiveSource` of the
spec's 4.4. -/
theorem C5_positive_search_follows_spec (wf : Workflow) (start : Node)
    (h : wfOkPos wf start = true) :
    bfs_upstream_to_positive_source wf start =
      .ok (specFindPositiveSource wf start) := by
  have hinv : ∀ x ∈ [start], x = start ∨ x ∈ wf.nodes := by
    intro x hx
    rw [List.mem_singleton] at hx
    exact Or.inl hx
  have hagree := bfsGenAux_congr wf start
    (fun n hn => posCheck_eq ((wfOkPos_spec h n hn).2))
    (fun n hn => posExpand_eq ((wfOkPos_spec h n hn).2))
    (fun n hn l hok => (expandLinks_ok hok).2)
    (bfsFuel wf start) [start] [] hinv
  obtain ⟨r, hr⟩ := Option.isSome_iff_exists.mp (bfsPos_aux_isSome wf start)
  have hr2 : bfsGenAux (specPosCheck wf) (specPosExpand wf)
      (bfsFuel wf start) [start] [] = some r := by
    rw [← hagree]; exact hr
  have hnoerr := @bfsGenAux_no_error wf start
    (specPosCheck wf) (specPosExpand wf)
    (fun n hn => (wfOkPos_spec h n hn).1)
    (fun n _ e => specPosCheck_no_error e)
    (fun n _ e hcon => by rw [specPosExpand] at hcon; cases hcon)
    (fun n _ l hok => by
      rw [specPosExpand] at hok
      cases hok
      exact posSources_subset)
    (bfsFuel wf start) [start] [] hinv
  cases r with
  | error e => exact absurd hr2 (hnoerr e)
  | ok res =>
    rw [bfs_upstream_to_positive_source, hr]
    rw [specFindPositiveSource, hr2]

/-- C6 (amended): provided every reachable node carries an id and every
`link` key of its allow-listed input slots resolves in the link table, the
Upstream Text-Encoder Search returns the first node in breadth-first
order whose type contains the text-encoder marker, checking the stopping
predicate before expanding, and enqueues predecessors only through slots
whose declared type is CONDITIONING, CLIP, STRING or the wildcard "any";
links of other slot types are never followed — stated as equality with
the transcription `specFindTextEncoder` of the spec's 4.5. -/
theorem C6_clip_search_follows_spec (wf : Workflow) (start : Node)
    (h : wfOkClip wf start = true) :
    find_upstream_clip_encode wf start =
      .ok (specFindTextEncoder wf start) := by
  have hinv : ∀ x ∈ [start], x = start ∨ x ∈ wf.nodes := by
    intro x hx
    rw [List.mem_singleton] at hx
    exact Or.inl hx
  have hagree := @bfsGenAux_congr wf start
    clipCheck specClipCheck (clipExpand wf) (specClipExpand wf)
    (fun n hn => rfl)
    (fun n hn => clipExpand_eq ((wfOkClip_spec h n hn).2))
    (fun n hn l hok => (expandLinks_ok hok).2)
    (bfsFuel wf start) [start] [] hinv
  obtain ⟨r, hr⟩ := Option.isSome_iff_exists.mp (bfsClip_aux_isSome wf start)
  have hr2 : bfsGenAux specClipCheck (specClipExpand wf)
      (bfsFuel wf start) [start] [] = some r := by
    rw [← hagree]; exact hr
  have hnoerr := @bfsGenAux_no_error wf start
    specClipCheck (specClipExpand wf)
    (fun n hn => (wfOkClip_spec h n hn).1)
    (fun n _ e hcon => by
      rw [specClipCheck] at hcon
      by_cases hm : strIn "CLIPTextEncode" n.typeD = true
      · rw [if_pos hm] at hcon; cases hcon
      · rw [if_neg hm] at hcon; cases hcon)
    (fun n _ e hcon => by rw [specClipExpand] at hcon; cases hcon)
    (fun n _ l hok => by
      rw [specClipExpand] at hok
      cases hok
      exact clipSources_subset)
    (bfsFuel wf start) [start] [] hinv
  cases r with
  | error e => exact absurd hr2 (hnoerr e)
  | ok res =>
    rw [find_upstream_clip_encode, hr]
    rw [specFindTextEncoder, hr2]

/-- After dropping from the left then from the right, the left end is
still clean. -/
theorem dropWhile_rdropWhile_clean {α : Type} (p : α → Bool) (l : List α) :
    ((l.dropWhile p).rdropWhile p).dropWhile p = (l.dropWhile p).rdropWhile p := by
  set A := l.dropWhile p with hA
  cases hBc : A.rdropWhile p with
  | nil => rfl
  | cons b t =>
    have hpre := List.rdropWhile_prefix p A
    rw [hBc] at hpre
    obtain ⟨t2, ht⟩ := hpre
    have hAeq : A = b :: (t ++ t2) := by rw [← ht]; rfl
    have hidem : A.dropWhile p = A := by rw [hA]; exact List.dropWhile_idempotent p l
    rw [hAeq, List.dropWhile_cons] at hidem
    cases hpb : p b with
    | true =>
      rw [hpb] at hidem
      simp only [if_true] at hidem
      have hle := (List.dropWhile_suffix (l := t ++ t2) p).sublist.length_le
      rw [hidem] at hle
      simp at hle
    | false =>
      rw [List.dropWhile_cons, hpb]
      simp

/-- Python `strip` is idempotent. -/
theorem pyStrip_idem (s : String) : pyStrip (pyStrip s) = pyStrip s := by
  have key := dropWhile_rdropWhile_clean Char.isWhitespace s.data
  have h2 : ((((s.data.dropWhile Char.isWhitespace).rdropWhile
        Char.isWhitespace).dropWhile Char.isWhitespace).rdropWhile
        Char.isWhitespace) =
      (s.data.dropWhile Char.isWhitespace).rdropWhile Char.isWhitespace := by
    rw [key, List.rdropWhile_idempotent]
  exact congrArg String.mk h2

/-- Joint monotonicity of the resolver's threaded visited set: both the
node step and the slot loop only ever extend `visited`. -/
theorem helper_mono (wf : Workflow) :
    ∀ fuel : Nat,
      (∀ n vis r vis2, helper wf fuel n vis = some (.ok (r, vis2)) →
        ∀ x ∈ vis, x ∈ vis2) ∧
      (∀ slots vis r vis2, followInputs wf fuel slots vis = some (.ok (r, vis2)) →
        ∀ x ∈ vis, x ∈ vis2) := by
  intro fuel
  induction fuel with
  | zero =>
    have hH : ∀ n vis r vis2, helper wf 0 n vis = some (.ok (r, vis2)) →
        ∀ x ∈ vis, x ∈ vis2 := by
      intro n vis r vis2 h
      rw [helper_zero] at h
      cases h
    refine ⟨hH, ?_⟩
    intro slots
    induction slots with
    | nil =>
      intro vis r vis2 h
      rw [followInputs_nil] at h
      simp only [Option.some.injEq, Except.ok.injEq, Prod.mk.injEq] at h
      obtain ⟨_, hv⟩ := h
      subst hv
      exact fun x hx => hx
    | cons inp rest ihs =>
      intro vis r vis2 h
      rw [followInputs_cons] at h
      cases hl : inp.link with
      | none => rw [hl] at h; exact ihs vis r vis2 h
      | some l =>
        rw [hl] at h
        simp only [] at h
        cases hd : dictGet (build_link_map wf) l with
        | none => rw [hd] at h; simp at h
        | some tup =>
          rw [hd] at h
          simp only [] at h
          cases hg : get_node_by_id wf tup.src_id with
          | none => rw [hg] at h; exact ihs vis r vis2 h
          | some pred =>
            rw [hg] at h
            simp only [] at h
            rw [helper_zero] at h
            cases h
  | succ f ih =>
    have hH : ∀ n vis r vis2, helper wf (f + 1) n vis = some (.ok (r, vis2)) →
        ∀ x ∈ vis, x ∈ vis2 := by
      intro n vis r vis2 h
      rw [helper_succ] at h
      cases hid : n.id with
      | none => rw [hid] at h; simp at h
      | some v =>
        rw [hid] at h
        simp only [] at h
        by_cases hv : v ∈ vis
        · rw [if_pos hv] at h
          simp only [Option.some.injEq, Except.ok.injEq, Prod.mk.injEq] at h
          obtain ⟨_, hv2⟩ := h
          subst hv2
          exact fun x hx => hx
        · rw [if_neg hv] at h
          cases hr1 : rule1Step n with
          | error e => rw [hr1] at h; simp at h
          | ok o1 =>
            rw [hr1] at h
            cases o1 with
            | some s =>
              simp only [Option.some.injEq, Except.ok.injEq, Prod.mk.injEq] at h
              obtain ⟨_, hv2⟩ := h
              subst hv2
              exact fun x hx => List.mem_cons_of_mem _ hx
            | none =>
              simp only [] at h
              cases hr2 : rule2Step n with
              | some s =>
                rw [hr2] at h
                simp only [Option.some.injEq, Except.ok.injEq, Prod.mk.injEq] at h
                obtain ⟨_, hv2⟩ := h
                subst hv2
                exact fun x hx => List.mem_cons_of_mem _ hx
              | none =>
                rw [hr2] at h
                simp only [] at h
                cases hf1 : followInputs wf f
                    (n.inputs.filter fun i =>
                      decide (i.name = some "text") && i.link.isSome) (v :: vis) with
                | none => rw [hf1] at h; simp at h
                | some res1 =>
                  rw [hf1] at h
                  cases res1 with
                  | error e => simp at h
                  | ok pr =>
                    obtain ⟨res, vis1⟩ := pr
                    cases res with
                    | some s =>
                      simp only [Option.some.injEq, Except.ok.injEq,
                        Prod.mk.injEq] at h
                      obtain ⟨_, hv2⟩ := h
                      subst hv2
                      intro x hx
                      exact (ih.2 _ _ _ _ hf1) x (List.mem_cons_of_mem _ hx)
                    | none =>
                      simp only [] at h
                      intro x hx
                      have h1 := (ih.2 _ _ _ _ hf1) x (List.mem_cons_of_mem _ hx)
                      exact (ih.2 _ _ _ _ h) x h1
    have hF : ∀ slots vis r vis2,
        followInputs wf (f + 1) slots vis = some (.ok (r, vis2)) →
        ∀ x ∈ vis, x ∈ vis2 := by
      intro slots
      induction slots with
      | nil =>
        intro vis r vis2 h
        rw [followInputs_nil] at h
        simp only [Option.some.injEq, Except.ok.injEq, Prod.mk.injEq] at h
        obtain ⟨_, hv⟩ := h
        subst hv
        exact fun x hx => hx
      | cons inp rest ihs =>
        intro vis r vis2 h
        rw [followInputs_cons] at h
        cases hl : inp.link with
        | none => rw [hl] at h; exact ihs vis r vis2 h
        | some l =>
          rw [hl] at h
          simp only [] at h
          cases hd : dictGet (build_link_map wf) l with
          | none => rw [hd] at h; simp at h
          | some tup =>
            rw [hd] at h
            simp only [] at h
            cases hg : get_node_by_id wf tup.src_id with
            | none => rw [hg] at h; exact ihs vis r vis2 h
            | some pred =>
              rw [hg] at h
              simp only [] at h
              cases hh : helper wf (f + 1) pred vis with
              | none => rw [hh] at h; simp at h
              | some resh =>
                rw [hh] at h
                cases resh with
                | error e => simp at h
                | ok pr =>
                  obtain ⟨res, vis1⟩ := pr
                  simp only [] at h
                  by_cases ht : truthyRes res = true
                  · rw [if_pos ht] at h
                    simp only [Option.some.injEq, Except.ok.injEq,
                      Prod.mk.injEq] at h
                    obtain ⟨_, hv2⟩ := h
                    subst hv2
                    exact hH _ _ _ _ hh
                  · rw [if_neg ht] at h
                    intro x hx
                    exact ihs _ _ _ h x (hH _ _ _ _ hh x hx)
    exact ⟨hH, hF⟩

/-- A visited-set extension cannot increase the unseen count. -/
theorem unseenCount_le_of_subset {wf : Workflow} {vis vis2 : List LVal}
    (h : ∀ x ∈ vis, x ∈ vis2) :
    unseenCount wf vis2 ≤ unseenCount wf vis := by
  apply List.Sublist.length_le
  apply List.monotone_filter_right
  intro a ha
  simp only [decide_eq_true_eq] at ha ⊢
  exact fun hmem => ha (h a hmem)

/-- Visiting a fresh workflow node id strictly shrinks the unseen count. -/
theorem unseenCount_insert_lt {wf : Workflow} {vis : List LVal} {v : LVal}
    (hv : v ∈ resolverIds wf) (hnv : v ∉ vis) :
    unseenCount wf (v :: vis) < unseenCount wf vis := by
  rw [unseenCount, unseenCount]
  exact unseen_count_lt hv hnv

/-- A workflow node's id is among the resolver's id universe. -/
theorem id_mem_resolverIds {wf : Workflow} {n : Node} {v : LVal}
    (hn : n ∈ wf.nodes) (hid : n.id = some v) : v ∈ resolverIds wf := by
  rw [resolverIds, List.mem_dedup]
  exact List.mem_filterMap.mpr ⟨n, hn, hid⟩

/-- Fuel sufficiency for the resolver: with fuel exceeding the number of
unseen workflow node ids, neither the node step (on a workflow node) nor
the slot loop can exhaust its fuel. -/
theorem helper_isSome (wf : Workflow) :
    ∀ fuel : Nat,
      (∀ n vis, n ∈ wf.nodes → unseenCount wf vis + 1 ≤ fuel →
        (helper wf fuel n vis).isSome) ∧
      (∀ slots vis, unseenCount wf vis + 1 ≤ fuel →
        (followInputs wf fuel slots vis).isSome) := by
  intro fuel
  induction fuel with
  | zero =>
    constructor
    · intro n vis _ hle; omega
    · intro slots vis hle; omega
  | succ f ih =>
    have hH : ∀ n vis, n ∈ wf.nodes → unseenCount wf vis + 1 ≤ f + 1 →
        (helper wf (f + 1) n vis).isSome := by
      intro n vis hn hle
      rw [helper_succ]
      cases hid : n.id with
      | none => simp
      | some v =>
        simp only []
        by_cases hv : v ∈ vis
        · rw [if_pos hv]; simp
        · rw [if_neg hv]
          have hvm : v ∈ resolverIds wf := id_mem_resolverIds hn hid
          have hlt := unseenCount_insert_lt hvm hv
          cases hr1 : rule1Step n with
          | error e => simp
          | ok o1 =>
            cases o1 with
            | some s => simp
            | none =>
              simp only []
              cases hr2 : rule2Step n with
              | some s => simp
              | none =>
                simp only []
                have hle1 : unseenCount wf (v :: vis) + 1 ≤ f := by omega
                have h1 := ih.2 (n.inputs.filter fun i =>
                  decide (i.name = some "text") && i.link.isSome) (v :: vis) hle1
                cases hf1 : followInputs wf f
                    (n.inputs.filter fun i =>
                      decide (i.name = some "text") && i.link.isSome) (v :: vis) with
                | none => rw [hf1] at h1; cases h1
                | some res1 =>
                  cases res1 with
                  | error e => simp
                  | ok pr =>
                    obtain ⟨res, vis1⟩ := pr
                    cases res with
                    | some s => simp
                    | none =>
                      simp only []
                      have hsub := (helper_mono wf f).2 _ _ _ _ hf1
                      have hle2 : unseenCount wf vis1 + 1 ≤ f := by
                        have := @unseenCount_le_of_subset wf _ _ hsub
                        omega
                      exact ih.2 (n.inputs.filter fun i =>
                        decide (i.type = some "STRING") && i.link.isSome) vis1 hle2
    have hF : ∀ slots vis, unseenCount wf vis + 1 ≤ f + 1 →
        (followInputs wf (f + 1) slots vis).isSome := by
      intro slots
      induction slots with
      | nil => intro vis hle; rw [followInputs_nil]; simp
      | cons inp rest ihs =>
        intro vis hle
        rw [followInputs_cons]
        cases hl : inp.link with
        | none => exact ihs vis hle
        | some l =>
          simp only []
          cases hd : dictGet (build_link_map wf) l with
          | none => simp
          | some tup =>
            simp only []
            cases hg : get_node_by_id wf tup.src_id with
            | none => exact ihs vis hle
            | some pred =>
              simp only []
              have hpred : pred ∈ wf.nodes := List.mem_of_find?_eq_some hg
              have h1 := hH pred vis hpred hle
              cases hh : helper wf (f + 1) pred vis with
              | none => rw [hh] at h1; cases h1
              | some resh =>
                cases resh with
                | error e => simp
                | ok pr =>
                  obtain ⟨res, vis1⟩ := pr
                  simp only []
                  by_cases ht : truthyRes res = true
                  · rw [if_pos ht]; simp
                  · rw [if_neg ht]
                    have hsub := (helper_mono wf (f + 1)).1 _ _ _ _ hh
                    have hle2 : unseenCount wf vis1 + 1 ≤ f + 1 := by
                      have := @unseenCount_le_of_subset wf _ _ hsub
                      omega
                    exact ihs vis1 hle2
    exact ⟨hH, hF⟩

/-- The fresh unseen count is the whole id universe. -/
theorem unseenCount_nil (wf : Workflow) :
    unseenCount wf [] = (resolverIds wf).length := by
  rw [unseenCount, filter_not_mem_nil]

/-- The resolver's wrapper fuel is always sufficient. -/
theorem extract_helper_isSome (wf : Workflow) (n : Node) :
    (helper wf (resolverFuel wf) n []).isSome := by
  have e1 : resolverFuel wf = ((resolverIds wf).length + 1) + 1 := rfl
  rw [e1, helper_succ]
  cases hid : n.id with
  | none => simp
  | some v =>
    simp only []
    rw [if_neg (List.not_mem_nil v)]
    have hle : unseenCount wf [v] + 1 ≤ (resolverIds wf).length + 1 := by
      have h1 : unseenCount wf [v] ≤ unseenCount wf [] :=
        unseenCount_le_of_subset (fun x hx => absurd hx (List.not_mem_nil x))
      rw [unseenCount_nil] at h1
      omega
    cases hr1 : rule1Step n with
    | error e => simp
    | ok o1 =>
      cases o1 with
      | some s => simp
      | none =>
        simp only []
        cases hr2 : rule2Step n with
        | some s => simp
        | none =>
          simp only []
          have h1 := (helper_isSome wf ((resolverIds wf).length + 1)).2
            (n.inputs.filter fun i =>
              decide (i.name = some "text") && i.link.isSome) [v] hle
          cases hf1 : followInputs wf ((resolverIds wf).length + 1)
              (n.inputs.filter fun i =>
                decide (i.name = some "text") && i.link.isSome) [v] with
          | none => rw [hf1] at h1; cases h1
          | some res1 =>
            cases res1 with
            | error e => simp
            | ok pr =>
              obtain ⟨res, vis1⟩ := pr
              cases res with
              | some s => simp
              | none =>
                simp only []
                have hsub := (helper_mono wf ((resolverIds wf).length + 1)).2
                  _ _ _ _ hf1
                have hle2 : unseenCount wf vis1 + 1 ≤
                    (resolverIds wf).length + 1 := by
                  have h2 := @unseenCount_le_of_subset wf _ _ hsub
                  omega
                exact (helper_isSome wf ((resolverIds wf).length + 1)).2
                  (n.inputs.filter fun i =>
                    decide (i.type = some "STRING") && i.link.isSome) vis1 hle2

/-- Rule 1 only returns stripped strings. -/
theorem rule1Step_stripped {n : Node} {s : String}
    (h : rule1Step n = .ok (some s)) : pyStrip s = s := by
  rw [rule1Step] at h
  by_cases hc : strIn "CLIPTextEncode" n.typeD = true
  · rw [if_pos hc] at h
    simp only [] at h
    by_cases hg : (!textLinked n && (n.widgets_values.getD (.list [])).truthy) = true
    · rw [if_pos hg] at h
      cases hi : (n.widgets_values.getD (.list [])).index0 with
      | error e => rw [hi] at h; cases h
      | ok x =>
        rw [hi] at h
        cases x with
        | str s0 =>
          simp only [Except.ok.injEq, Option.some.injEq] at h
          rw [← h]
          exact pyStrip_idem s0
        | num i => cases h
        | list l => cases h
        | null => cases h
    · rw [if_neg hg] at h; cases h
  · rw [if_neg hc] at h; cases h

/-- Rule 2 only returns stripped strings. -/
theorem rule2Step_stripped {n : Node} {s : String}
    (h : rule2Step n = some s) : pyStrip s = s := by
  rw [rule2Step] at h
  cases hw : n.widgets_values with
  | none => rw [hw] at h; cases h
  | some w =>
    rw [hw] at h
    simp only [] at h
    by_cases ht : w.truthy = true
    · rw [if_pos ht] at h
      cases hs : (flatten_strings w).filter (fun x => pyStrip x ≠ "") with
      | nil => rw [hs] at h; cases h
      | cons s0 rest =>
        rw [hs] at h
        simp only [Option.some.injEq] at h
        rw [← h]
        exact pyStrip_idem _
    · rw [if_neg ht] at h; cases h

/-- Every string the resolver produces is its own strip. -/
theorem helper_stripped (wf : Workflow) :
    ∀ fuel : Nat,
      (∀ n vis s vis2, helper wf fuel n vis = some (.ok (some s, vis2)) →
        pyStrip s = s) ∧
      (∀ slots vis s vis2,
        followInputs wf fuel slots vis = some (.ok (some s, vis2)) →
        pyStrip s = s) := by
  intro fuel
  induction fuel with
  | zero =>
    have hH : ∀ n vis s vis2, helper wf 0 n vis = some (.ok (some s, vis2)) →
        pyStrip s = s := by
      intro n vis s vis2 h
      rw [helper_zero] at h
      cases h
    refine ⟨hH, ?_⟩
    intro slots
    induction slots with
    | nil =>
      intro vis s vis2 h
      rw [followInputs_nil] at h
      simp at h
    | cons inp rest ihs =>
      intro vis s vis2 h
      rw [followInputs_cons] at h
      cases hl : inp.link with
      | none => rw [hl] at h; exact ihs vis s vis2 h
      | some l =>
        rw [hl] at h
        simp only [] at h
        cases hd : dictGet (build_link_map wf) l with
        | none => rw [hd] at h; simp at h
        | some tup =>
          rw [hd] at h
          simp only [] at h
          cases hg : get_node_by_id wf tup.src_id with
          | none => rw [hg] at h; exact ihs vis s vis2 h
          | some pred =>
            rw [hg] at h
            simp only [] at h
            rw [helper_zero] at h
            cases h
  | succ f ih =>
    have hH : ∀ n vis s vis2,
        helper wf (f + 1) n vis = some (.ok (some s, vis2)) →
        pyStrip s = s := by
      intro n vis s vis2 h
      rw [helper_succ] at h
      cases hid : n.id with
      | none => rw [hid] at h; simp at h
      | some v =>
        rw [hid] at h
        simp only [] at h
        by_cases hv : v ∈ vis
        · rw [if_pos hv] at h; simp at h
        · rw [if_neg hv] at h
          cases hr1 : rule1Step n with
          | error e => rw [hr1] at h; simp at h
          | ok o1 =>
            rw [hr1] at h
            cases o1 with
            | some s1 =>
              simp only [Option.some.injEq, Except.ok.injEq, Prod.mk.injEq,
                Option.some.injEq] at h
              obtain ⟨hs, _⟩ := h
              subst hs
              exact rule1Step_stripped hr1
            | none =>
              simp only [] at h
              cases hr2 : rule2Step n with
              | some s2 =>
                rw [hr2] at h
                simp only [Option.some.injEq, Except.ok.injEq,
                  Prod.mk.injEq, Option.some.injEq] at h
                obtain ⟨hs, _⟩ := h
                subst hs
                exact rule2Step_stripped hr2
              | none =>
                rw [hr2] at h
                simp only [] at h
                cases hf1 : followInputs wf f
                    (n.inputs.filter fun i =>
                      decide (i.name = some "text") && i.link.isSome) (v :: vis) with
                | none => rw [hf1] at h; simp at h
                | some res1 =>
                  rw [hf1] at h
                  cases res1 with
                  | error e => simp at h
                  | ok pr =>
                    obtain ⟨res, vis1⟩ := pr
                    cases res with
                    | some s1 =>
                      simp only [Option.some.injEq, Except.ok.injEq,
                        Prod.mk.injEq, Option.some.injEq] at h
                      obtain ⟨hs, _⟩ := h
                      subst hs
                      exact ih.2 _ _ _ _ hf1
                    | none =>
                      simp only [] at h
                      exact ih.2 _ _ _ _ h
    have hF : ∀ slots vis s vis2,
        followInputs wf (f + 1) slots vis = some (.ok (some s, vis2)) →
        pyStrip s = s := by
      intro slots
      induction slots with
      | nil =>
        intro vis s vis2 h
        rw [followInputs_nil] at h
        simp at h
      | cons inp rest ihs =>
        intro vis s vis2 h
        rw [followInputs_cons] at h
        cases hl : inp.link with
        | none => rw [hl] at h; exact ihs vis s vis2 h
        | some l =>
          rw [hl] at h
          simp only [] at h
          cases hd : dictGet (build_link_map wf) l with
          | none => rw [hd] at h; simp at h
          | some tup =>
            rw [hd] at h
            simp only [] at h
            cases hg : get_node_by_id wf tup.src_id with
            | none => rw [hg] at h; exact ihs vis s vis2 h
            | some pred =>
              rw [hg] at h
              simp only [] at h
              cases hh : helper wf (f + 1) pred vis with
              | none => rw [hh] at h; simp at h
              | some resh =>
                rw [hh] at h
                cases resh with
                | error e => simp at h
                | ok pr =>
                  obtain ⟨res, vis1⟩ := pr
                  simp only [] at h
                  by_cases ht : truthyRes res = true
                  · rw [if_pos ht] at h
                    simp only [Option.some.injEq, Except.ok.injEq,
                      Prod.mk.injEq] at h
                    obtain ⟨hres, _⟩ := h
                    cases res with
                    | some s1 =>
                      cases hres
                      exact hH _ _ _ _ hh
                    | none => cases hres
                  · rw [if_neg ht] at h
                    exact ihs _ _ _ h
    exact ⟨hH, hF⟩

/-- Rule 1 cannot raise on an indexable widget payload. -/
theorem rule1Step_no_error {n : Node} (hw : wvOk n = true) :
    ∀ e, rule1Step n ≠ .error e := by
  intro e h
  rw [rule1Step] at h
  by_cases hc : strIn "CLIPTextEncode" n.typeD = true
  · rw [if_pos hc] at h
    simp only [] at h
    by_cases hg : (!textLinked n && (n.widgets_values.getD (.list [])).truthy) = true
    · rw [if_pos hg] at h
      rw [Bool.and_eq_true] at hg
      have htr := hg.2
      rw [wvOk] at hw
      cases hwv : n.widgets_values with
      | none =>
        rw [hwv] at htr
        simp [WVal.truthy, Option.getD] at htr
      | some w =>
        rw [hwv] at htr hw h
        simp only [Option.getD] at htr h
        rw [Bool.or_eq_true, Bool.not_eq_true'] at hw
        cases w with
        | str s =>
          rw [WVal.index0] at h
          cases hsd : s.data with
          | nil =>
            rw [WVal.truthy] at htr
            have : s = "" := by cases s; simp at hsd; rw [hsd]
            rw [this] at htr
            simp at htr
          | cons c cs => rw [hsd] at h; simp only [] at h; cases h
        | num i =>
          rcases hw with h1 | h2
          · rw [htr] at h1; cases h1
          · simp at h2
        | list l =>
          cases l with
          | nil => rw [WVal.truthy] at htr; simp at htr
          | cons x xs => rw [WVal.index0] at h; cases x <;> simp at h
        | null => rw [WVal.truthy] at htr; cases htr
    · rw [if_neg hg] at h; cases h
  · rw [if_neg hc] at h; cases h

/-- The resolver cannot raise when every workflow node (and the node it
is applied to) carries an id, has resolvable slot links, and an indexable
widget payload. -/
theorem helper_no_error (wf : Workflow)
    (hnodes : ∀ n ∈ wf.nodes, n.id.isSome = true ∧ wvOk n = true ∧
      ∀ i ∈ n.inputs, linkResolvable wf i = true) :
    ∀ fuel : Nat,
      (∀ n vis, n.id.isSome = true → wvOk n = true →
        (∀ i ∈ n.inputs, linkResolvable wf i = true) →
        ∀ e, helper wf fuel n vis ≠ some (.error e)) ∧
      (∀ slots vis, (∀ i ∈ slots, linkResolvable wf i = true) →
        ∀ e, followInputs wf fuel slots vis ≠ some (.error e)) := by
  intro fuel
  induction fuel with
  | zero =>
    have hH : ∀ n vis, n.id.isSome = true → wvOk n = true →
        (∀ i ∈ n.inputs, linkResolvable wf i = true) →
        ∀ e, helper wf 0 n vis ≠ some (.error e) := by
      intro n vis _ _ _ e h
      rw [helper_zero] at h
      cases h
    refine ⟨hH, ?_⟩
    intro slots
    induction slots with
    | nil =>
      intro vis _ e h
      rw [followInputs_nil] at h
      simp at h
    | cons inp rest ihs =>
      intro vis hres e h
      have hrest := fun i hi => hres i (List.mem_cons_of_mem _ hi)
      have hinp := hres inp (List.mem_cons_self _ _)
      rw [followInputs_cons] at h
      cases hl : inp.link with
      | none => rw [hl] at h; exact ihs vis hrest e h
      | some l =>
        rw [hl] at h
        simp only [] at h
        rw [linkResolvable, hl] at hinp
        rw [Option.isSome_iff_exists] at hinp
        obtain ⟨tup, hd⟩ := hinp
        rw [hd] at h
        simp only [] at h
        cases hg : get_node_by_id wf tup.src_id with
        | none => rw [hg] at h; exact ihs vis hrest e h
        | some pred =>
          rw [hg] at h
          simp only [] at h
          rw [helper_zero] at h
          cases h
  | succ f ih =>
    have hH : ∀ n vis, n.id.isSome = true → wvOk n = true →
        (∀ i ∈ n.inputs, linkResolvable wf i = true) →
        ∀ e, helper wf (f + 1) n vis ≠ some (.error e) := by
      intro n vis hid hwv hlinks e h
      rw [helper_succ] at h
      cases hidv : n.id with
      | none => rw [hidv] at hid; cases hid
      | some v =>
        rw [hidv] at h
        simp only [] at h
        by_cases hv : v ∈ vis
        · rw [if_pos hv] at h; simp at h
        · rw [if_neg hv] at h
          cases hr1 : rule1Step n with
          | error e2 => exact absurd hr1 (rule1Step_no_error hwv e2)
          | ok o1 =>
            rw [hr1] at h
            cases o1 with
            | some s => simp at h
            | none =>
              simp only [] at h
              cases hr2 : rule2Step n with
              | some s => rw [hr2] at h; simp at h
              | none =>
                rw [hr2] at h
                simp only [] at h
                have hsub1 : ∀ i ∈ (n.inputs.filter fun i =>
                    decide (i.name = some "text") && i.link.isSome),
                    linkResolvable wf i = true :=
                  fun i hi => hlinks i (List.mem_of_mem_filter hi)
                cases hf1 : followInputs wf f
                    (n.inputs.filter fun i =>
                      decide (i.name = some "text") && i.link.isSome) (v :: vis) with
                | none => rw [hf1] at h; simp at h
                | some res1 =>
                  rw [hf1] at h
                  cases res1 with
                  | error e2 => exact absurd hf1 (ih.2 _ _ hsub1 e2)
                  | ok pr =>
                    obtain ⟨res, vis1⟩ := pr
                    cases res with
                    | some s => simp at h
                    | none =>
                      simp only [] at h
                      have hsub2 : ∀ i ∈ (n.inputs.filter fun i =>
                          decide (i.type = some "STRING") && i.link.isSome),
                          linkResolvable wf i = true :=
                        fun i hi => hlinks i (List.mem_of_mem_filter hi)
                      exact ih.2 _ _ hsub2 e h
    have hF : ∀ slots vis, (∀ i ∈ slots, linkResolvable wf i = true) →
        ∀ e, followInputs wf (f + 1) slots vis ≠ some (.error e) := by
      intro slots
      induction slots with
      | nil =>
        intro vis _ e h
        rw [followInputs_nil] at h
        simp at h
      | cons inp rest ihs =>
        intro vis hres e h
        have hrest := fun i hi => hres i (List.mem_cons_of_mem _ hi)
        have hinp := hres inp (List.mem_cons_self _ _)
        rw [followInputs_cons] at h
        cases hl : inp.link with
        | none => rw [hl] at h; exact ihs vis hrest e h
        | some l =>
          rw [hl] at h
          simp only [] at h
          rw [linkResolvable, hl] at hinp
          rw [Option.isSome_iff_exists] at hinp
          obtain ⟨tup, hd⟩ := hinp
          rw [hd] at h
          simp only [] at h
          cases hg : get_node_by_id wf tup.src_id with
          | none => rw [hg] at h; exact ihs vis hrest e h
          | some pred =>
            rw [hg] at h
            simp only [] at h
            have hpred : pred ∈ wf.nodes := List.mem_of_find?_eq_some hg
            obtain ⟨hpid, hpwv, hplinks⟩ := hnodes pred hpred
            cases hh : helper wf (f + 1) pred vis with
            | none => rw [hh] at h; simp at h
            | some resh =>
              rw [hh] at h
              cases resh with
              | error e2 => exact absurd hh (hH _ _ hpid hpwv hplinks e2)
              | ok pr =>
                obtain ⟨res, vis1⟩ := pr
                simp only [] at h
                by_cases ht : truthyRes res = true
                · rw [if_pos ht] at h; simp at h
                · rw [if_neg ht] at h
                  exact ihs _ hrest e h
    exact ⟨hH, hF⟩

/-- Unpacking `wfOkAll`. -/
theorem wfOkAll_spec {wf : Workflow} {start : Node}
    (h : wfOkAll wf start = true) :
    ∀ n, (n = start ∨ n ∈ wf.nodes) →
      n.id.isSome = true ∧ wvOk n = true ∧
        ∀ i ∈ n.inputs, linkResolvable wf i = true := by
  rw [wfOkAll, Bool.and_eq_true] at h
  intro n hn
  obtain ⟨h1, h2⟩ := wfOkPos_spec h.1 n hn
  rw [List.all_eq_true] at h
  have hmem : n ∈ start :: wf.nodes := by
    rcases hn with rfl | hm
    · exact List.mem_cons_self _ _
    · exact List.mem_cons_of_mem _ hm
  exact ⟨h1, h.2 n hmem, h2⟩

/-- `wfOkPos` is at least as strong as `wfOkClip`. -/
theorem wfOkPos_imp_clip {wf : Workflow} {start : Node}
    (h : wfOkPos wf start = true) : wfOkClip wf start = true := by
  rw [wfOkClip, List.all_eq_true]
  intro n hn
  have h2 := wfOkPos_spec h n (by
    rcases List.mem_cons.mp hn with rfl | hm
    · exact Or.inl rfl
    · exact Or.inr hm)
  rw [Bool.and_eq_true]
  refine ⟨h2.1, ?_⟩
  rw [List.all_eq_true]
  intro i hi
  rw [Bool.or_eq_true]
  exact Or.inr (h2.2 i hi)

/-- The positive search returns an explicit result under `wfOkPos`. -/
theorem bfsPos_no_error {wf : Workflow} {start : Node}
    (h : wfOkPos wf start = true) :
    ∀ e, bfs_upstream_to_positive_source wf start ≠ .error e := by
  intro e hcon
  have hinv : ∀ x ∈ [start], x = start ∨ x ∈ wf.nodes := by
    intro x hx
    rw [List.mem_singleton] at hx
    exact Or.inl hx
  have hnoerr := @bfsGenAux_no_error wf start
    (posCheck wf) (posExpand wf)
    (fun n hn => (wfOkPos_spec h n hn).1)
    (fun n hn e2 => by
      rw [posCheck_eq ((wfOkPos_spec h n hn).2)]
      exact specPosCheck_no_error e2)
    (fun n hn e2 hcon2 => by
      rw [posExpand_eq ((wfOkPos_spec h n hn).2), specPosExpand] at hcon2
      cases hcon2)
    (fun n hn l hok => (expandLinks_ok hok).2)
    (bfsFuel wf start) [start] [] hinv
  obtain ⟨r, hr⟩ := Option.isSome_iff_exists.mp (bfsPos_aux_isSome wf start)
  rw [bfs_upstream_to_positive_source, hr] at hcon
  cases r with
  | error e2 =>
    simp only [Except.error.injEq] at hcon
    subst hcon
    exact hnoerr _ hr
  | ok res => cases hcon

/-- The text-encoder search returns an explicit result under `wfOkClip`. -/
theorem bfsClip_no_error {wf : Workflow} {start : Node}
    (h : wfOkClip wf start = true) :
    ∀ e, find_upstream_clip_encode wf start ≠ .error e := by
  intro e hcon
  have hinv : ∀ x ∈ [start], x = start ∨ x ∈ wf.nodes := by
    intro x hx
    rw [List.mem_singleton] at hx
    exact Or.inl hx
  have hnoerr := @bfsGenAux_no_error wf start
    clipCheck (clipExpand wf)
    (fun n hn => (wfOkClip_spec h n hn).1)
    (fun n _ e2 hcon2 => by
      rw [clipCheck] at hcon2
      by_cases hm : strIn "CLIPTextEncode" n.typeD = true
      · rw [if_pos hm] at hcon2; cases hcon2
      · rw [if_neg hm] at hcon2; cases hcon2)
    (fun n hn e2 hcon2 => by
      rw [clipExpand_eq ((wfOkClip_spec h n hn).2), specClipExpand] at hcon2
      cases hcon2)
    (fun n hn l hok => (expandLinks_ok hok).2)
    (bfsFuel wf start) [start] [] hinv
  obtain ⟨r, hr⟩ := Option.isSome_iff_exists.mp (bfsClip_aux_isSome wf start)
  rw [find_upstream_clip_encode, hr] at hcon
  cases r with
  | error e2 =>
    simp only [Except.error.injEq] at hcon
    subst hcon
    exact hnoerr _ hr
  | ok res => cases hcon

/-- The resolver returns an explicit result under `wfOkAll`. -/
theorem extract_no_error {wf : Workflow} {start : Node}
    (h : wfOkAll wf start = true) :
    ∀ e, extract_string_value_recursive wf start ≠ .error e := by
  intro e hcon
  obtain ⟨hid, hwv, hlinks⟩ := wfOkAll_spec h start (Or.inl rfl)
  have hnodes : ∀ n ∈ wf.nodes, n.id.isSome = true ∧ wvOk n = true ∧
      ∀ i ∈ n.inputs, linkResolvable wf i = true :=
    fun n hn => wfOkAll_spec h n (Or.inr hn)
  obtain ⟨r, hr⟩ := Option.isSome_iff_exists.mp (extract_helper_isSome wf start)
  rw [extract_string_value_recursive, hr] at hcon
  cases r with
  | error e2 =>
    simp only [] at hcon
    simp only [Except.error.injEq] at hcon
    subst hcon
    exact (helper_no_error wf hnodes (resolverFuel wf)).1 start [] hid hwv hlinks _ hr
  | ok pr => simp at hcon

/-- The resolver's successful outputs are their own strip. -/
theorem extract_stripped {wf : Workflow} {node : Node} {s : String}
    (h : extract_string_value_recursive wf node = .ok (some s)) :
    pyStrip s = s := by
  rw [extract_string_value_recursive] at h
  cases hr : helper wf (resolverFuel wf) node [] with
  | none => rw [hr] at h; cases h
  | some r =>
    rw [hr] at h
    cases r with
    | error e => cases h
    | ok pr =>
      obtain ⟨res, vis⟩ := pr
      simp only [Except.ok.injEq] at h
      subst h
      exact (helper_stripped wf (resolverFuel wf)).1 _ _ _ _ hr

/-- Python's first-wins running maximum computes the first element whose
key is greatest among all elements. -/
theorem pymax_eq_firstArgmax (f : Node → Int) :
    ∀ (rest : List Node) (c : Node),
      some (pymax f c rest) = firstArgmax f (c :: rest) := by
  intro rest
  induction rest with
  | nil =>
    intro c
    rw [pymax, firstArgmax]
    simp [List.find?]
  | cons x xs ih =>
    intro c
    have hstep : pymax f c (x :: xs) = pymax f (if f x > f c then x else c) xs := by
      rw [pymax, pymax, List.foldl_cons]
    rw [hstep]
    by_cases hgt : f x > f c
    · rw [if_pos hgt, ih x]
      have hpcP : ¬ ((c :: x :: xs).all fun m => decide (f m ≤ f c)) = true := by
        intro hall
        rw [List.all_eq_true] at hall
        have h2 := hall x (by simp)
        simp only [decide_eq_true_eq] at h2
        omega
      have key : firstArgmax f (c :: x :: xs) = firstArgmax f (x :: xs) := by
        rw [firstArgmax, firstArgmax]
        rw [@List.find?_cons_of_neg _
          (fun n => (c :: x :: xs).all fun m => decide (f m ≤ f n)) c
          (x :: xs) hpcP]
        apply (find?_congr_mem _ _).symm
        intro n hn
        cases hp2 : ((x :: xs).all fun m => decide (f m ≤ f n)) with
        | true =>
          rw [List.all_eq_true] at hp2
          have h3 := hp2 x (List.mem_cons_self _ _)
          simp only [decide_eq_true_eq] at h3
          have hbig : ((c :: x :: xs).all fun m => decide (f m ≤ f n)) = true := by
            rw [List.all_eq_true]
            intro m hm
            rcases List.mem_cons.mp hm with rfl | hm2
            · simp only [decide_eq_true_eq]; omega
            · exact hp2 m hm2
          rw [hbig]
        | false =>
          have hbig : ((c :: x :: xs).all fun m => decide (f m ≤ f n)) = false := by
            rw [Bool.eq_false_iff]
            intro hall
            rw [Bool.eq_false_iff] at hp2
            apply hp2
            rw [List.all_eq_true] at hall ⊢
            intro m hm
            exact hall m (List.mem_cons_of_mem _ hm)
          rw [hbig]
      exact key.symm
    · rw [if_neg hgt, ih c]
      have key : firstArgmax f (c :: x :: xs) = firstArgmax f (c :: xs) := by
        rw [firstArgmax, firstArgmax]
        cases hp3 : ((c :: xs).all fun m => decide (f m ≤ f c)) with
        | true =>
          have hp1 : ((c :: x :: xs).all fun m => decide (f m ≤ f c)) = true := by
            rw [List.all_eq_true] at hp3 ⊢
            intro m hm
            rcases List.mem_cons.mp hm with rfl | hm2
            · exact hp3 m (List.mem_cons_self _ _)
            · rcases List.mem_cons.mp hm2 with rfl | hm3
              · simp only [decide_eq_true_eq]; omega
              · exact hp3 m (List.mem_cons_of_mem _ hm3)
          rw [@List.find?_cons_of_pos _
            (fun n => (c :: x :: xs).all fun m => decide (f m ≤ f n)) c
            (x :: xs) hp1]
          rw [@List.find?_cons_of_pos _
            (fun n => (c :: xs).all fun m => decide (f m ≤ f n)) c xs hp3]
        | false =>
          have hp3P : ¬ ((c :: xs).all fun m => decide (f m ≤ f c)) = true := by
            rw [hp3]; simp
          have hp1P : ¬ ((c :: x :: xs).all fun m => decide (f m ≤ f c)) = true := by
            intro hall
            apply hp3P
            rw [List.all_eq_true] at hall ⊢
            intro m hm
            rcases List.mem_cons.mp hm with rfl | hm2
            · exact hall m (List.mem_cons_self _ _)
            · exact hall m (List.mem_cons_of_mem _ (List.mem_cons_of_mem _ hm2))
          have hpxP : ¬ ((c :: x :: xs).all fun m => decide (f m ≤ f x)) = true := by
            intro hall
            apply hp3P
            rw [List.all_eq_true] at hall ⊢
            have hcx := hall c (List.mem_cons_self _ _)
            simp only [decide_eq_true_eq] at hcx
            intro m hm
            simp only [decide_eq_true_eq]
            rcases List.mem_cons.mp hm with rfl | hm2
            · omega
            · have h4 := hall m
                (List.mem_cons_of_mem _ (List.mem_cons_of_mem _ hm2))
              simp only [decide_eq_true_eq] at h4
              omega
          rw [@List.find?_cons_of_neg _
            (fun n => (c :: x :: xs).all fun m => decide (f m ≤ f n)) c
            (x :: xs) hp1P]
          rw [@List.find?_cons_of_neg _
            (fun n => (c :: x :: xs).all fun m => decide (f m ≤ f n)) x
            xs hpxP]
          rw [@List.find?_cons_of_neg _
            (fun n => (c :: xs).all fun m => decide (f m ≤ f n)) c xs hp3P]
          apply find?_congr_mem
          intro n hn
          cases hp2 : ((c :: xs).all fun m => decide (f m ≤ f n)) with
          | true =>
            rw [List.all_eq_true] at hp2
            have hcn := hp2 c (List.mem_cons_self _ _)
            simp only [decide_eq_true_eq] at hcn
            have hbig : ((c :: x :: xs).all fun m => decide (f m ≤ f n)) = true := by
              rw [List.all_eq_true]
              intro m hm
              rcases List.mem_cons.mp hm with rfl | hm2
              · simp only [decide_eq_true_eq]; omega
              · rcases List.mem_cons.mp hm2 with rfl | hm3
                · simp only [decide_eq_true_eq]; omega
                · exact hp2 m (List.mem_cons_of_mem _ hm3)
            rw [hbig]
          | false =>
            have hbig : ((c :: x :: xs).all fun m => decide (f m ≤ f n)) = false := by
              rw [Bool.eq_false_iff]
              intro hall
              rw [Bool.eq_false_iff] at hp2
              apply hp2
              rw [List.all_eq_true] at hall ⊢
              intro m hm
              rcases List.mem_cons.mp hm with rfl | hm2
              · exact hall m (List.mem_cons_self _ _)
              · exact hall m
                  (List.mem_cons_of_mem _ (List.mem_cons_of_mem _ hm2))
            rw [hbig]
      exact key.symm

/-- C1 counterexample: on `cexC1wf` the "text" slot of the encoder node
carries the dangling link id 99 while a STRING-typed slot could resolve
"fallback"; the String Resolver raises a `KeyError` instead of treating
the branch as "no link" and falling through to the next rule. -/
theorem C1_counterexample :
    extract_string_value_recursive cexC1wf cexC1clip = .error "KeyError" := by
  rfl

/-- C1 (amended): a link id referenced by a followed input slot but
absent from the link table raises a `KeyError` that escapes the
traversal/resolution functions; only the per-document entry point
converts it into an "error:" failure report, so the run does not crash. -/
theorem C1_dangling_link_raises_and_entry_reports :
    (∀ (wf : Workflow) (e : String), pipelineE wf = .error e →
      extract_final_positive_prompt_from_workflow wf =
        (none, some ("error:" ++ e))) ∧
    extract_string_value_recursive cexC1wf cexC1clip = .error "KeyError" := by
  constructor
  · intro wf e h
    rw [extract_final_positive_prompt_from_workflow, h]
  · rfl

/-- C1 witness: the entry point converts the `KeyError` raised on
`cexC1pipeWf` into the reported string "error:KeyError". -/
theorem C1_witness :
    extract_final_positive_prompt_from_workflow cexC1pipeWf =
      (none, some ("error:" ++ "KeyError")) :=
  C1_dangling_link_raises_and_entry_reports.1 cexC1pipeWf "KeyError" (by rfl)

/-- C2 counterexample: the Upstream Conditioning Search raises a
`KeyError` on a workflow whose "positive" slot carries a dangling link
id, instead of returning an explicit absent signal. -/
theorem C2_counterexample :
    bfs_upstream_to_positive_source cexC2wf cexC2node = .error "KeyError" := by
  rfl

/-- C2 (amended): the save-node locator is total by its return type, and
on workflows whose reachable nodes carry ids, whose slot links resolve
and whose widget payloads are indexable, the three traversal/resolution
functions return explicit results and never raise; on other workflows
they may raise, and the single per-document entry point converts any
raised fault into a reported "error:" string. -/
theorem C2_traversals_safe_under_wfOk_and_entry_catches :
    (∀ (wf : Workflow) (start : Node), wfOkAll wf start = true →
      (∀ e, bfs_upstream_to_positive_source wf start ≠ .error e) ∧
      (∀ e, find_upstream_clip_encode wf start ≠ .error e) ∧
      (∀ e, extract_string_value_recursive wf start ≠ .error e)) ∧
    (∀ (wf : Workflow) (e : String), pipelineE wf = .error e →
      extract_final_positive_prompt_from_workflow wf =
        (none, some ("error:" ++ e))) := by
  constructor
  · intro wf start h
    have hpos : wfOkPos wf start = true := by
      rw [wfOkAll, Bool.and_eq_true] at h
      exact h.1
    exact ⟨bfsPos_no_error hpos, bfsClip_no_error (wfOkPos_imp_clip hpos),
      extract_no_error h⟩
  · intro wf e h
    rw [extract_final_positive_prompt_from_workflow, h]

/-- C2 witness: on the well-formed chain `witC2wf` the searches return
explicit results, and on `cexC2pipeWf` the entry point reports the raised
fault. -/
theorem C2_witness :
    wfOkAll witC2wf witC2sampler = true ∧
    bfs_upstream_to_positive_source witC2wf witC2sampler ≠ .error "KeyError" ∧
    extract_final_positive_prompt_from_workflow cexC2pipeWf =
      (none, some ("error:" ++ "KeyError")) :=
  ⟨by rfl,
    (C2_traversals_safe_under_wfOk_and_entry_catches.1 witC2wf witC2sampler
      (by rfl)).1 "KeyError",
    C2_traversals_safe_under_wfOk_and_entry_catches.2 cexC2pipeWf "KeyError"
      (by rfl)⟩

/-- C5 counterexample: on `cexC5wf` no node has a "positive" input slot,
so the claimed behavior is to return absent once the queue empties; the
code instead raises a `KeyError` while expanding the dangling "samples"
link. -/
theorem C5_counterexample :
    bfs_upstream_to_positive_source cexC5wf cexC5start = .error "KeyError" := by
  rfl

/-- C5 witness: on the well-formed `witC5wf` the search agrees with the
spec transcription and returns the source node of the "positive" link. -/
theorem C5_witness :
    wfOkPos witC5wf witC5start = true ∧
    bfs_upstream_to_positive_source witC5wf witC5start =
      .ok (specFindPositiveSource witC5wf witC5start) ∧
    specFindPositiveSource witC5wf witC5start = some witC5enc :=
  ⟨by rfl, C5_positive_search_follows_spec witC5wf witC5start (by rfl), by rfl⟩

/-- C6 counterexample: on `cexC6wf` no node's type contains the
text-encoder marker, so the claimed behavior is to return absent; the
code instead raises a `KeyError` while expanding the dangling
CONDITIONING-typed link. -/
theorem C6_counterexample :
    find_upstream_clip_encode cexC6wf cexC6start = .error "KeyError" := by
  rfl

/-- C6 witness: on `witC6wf`, whose MODEL-typed slot carries a dangling
link that is never followed, the search agrees with the spec
transcription and finds the encoder through the CONDITIONING link. -/
theorem C6_witness :
    wfOkClip witC6wf witC6start = true ∧
    find_upstream_clip_encode witC6wf witC6start =
      .ok (specFindTextEncoder witC6wf witC6start) ∧
    specFindTextEncoder witC6wf witC6start = some witC6clip :=
  ⟨by rfl, C6_clip_search_follows_spec witC6wf witC6start (by rfl), by rfl⟩

/-- C3: for every workflow and every node of text-encoder type whose
first "text" input slot is absent or unlinked and whose `widgets_values`
is a list headed by a string, the String Resolver returns that first
element stripped of surrounding whitespace, immediately — independently
of the link table, the remaining widget entries and every other node, so
no later rule is consulted. -/
theorem C3_clip_inline_text (wf : Workflow) (n : Node) (v : LVal)
    (s : String) (rest : List WVal)
    (hid : n.id = some v)
    (hclip : strIn "CLIPTextEncode" n.typeD = true)
    (hunlinked : textLinked n = false)
    (hwv : n.widgets_values = some (.list (.str s :: rest))) :
    extract_string_value_recursive wf n = .ok (some (pyStrip s)) := by
  have hrule1 : rule1Step n = .ok (some (pyStrip s)) := by
    rw [rule1Step, if_pos hclip]
    simp only [hwv, Option.getD, hunlinked]
    rw [if_pos (by rw [WVal.truthy]; simp)]
    rw [WVal.index0]
  have e1 : resolverFuel wf = ((resolverIds wf).length + 1) + 1 := rfl
  have hh : helper wf (resolverFuel wf) n [] =
      some (.ok (some (pyStrip s), [v])) := by
    rw [e1, helper_succ, hid]
    simp only []
    rw [if_neg (List.not_mem_nil v), hrule1]
  rw [extract_string_value_recursive, hh]

/-- C3 witness: on the spec's example node the resolver returns exactly
"a cat, masterpiece". -/
theorem C3_witness :
    extract_string_value_recursive witC3wf witC3node =
      .ok (some (pyStrip "a cat, masterpiece")) ∧
    pyStrip "a cat, masterpiece" = "a cat, masterpiece" :=
  ⟨C3_clip_inline_text witC3wf witC3node (.int 1) "a cat, masterpiece" []
      (by rfl) (by rfl) (by rfl) (by rfl),
    by rfl⟩

/-- Python's first-wins longest-string fold picks a member of maximal
length. -/
theorem pymaxLen_spec :
    ∀ (rest : List String) (c : String),
      pymaxLen c rest ∈ c :: rest ∧
        ∀ t ∈ c :: rest, t.length ≤ (pymaxLen c rest).length := by
  intro rest
  induction rest with
  | nil =>
    intro c
    constructor
    · rw [pymaxLen]; exact List.mem_cons_self _ _
    · intro t ht
      rcases List.mem_cons.mp ht with rfl | h2
      · rw [pymaxLen, List.foldl_nil]
      · cases h2
  | cons x xs ih =>
    intro c
    have hstep : pymaxLen c (x :: xs) =
        pymaxLen (if x.length > c.length then x else c) xs := by
      rw [pymaxLen, pymaxLen, List.foldl_cons]
    by_cases hgt : x.length > c.length
    · rw [hstep, if_pos hgt]
      obtain ⟨ihm, ihb⟩ := ih x
      constructor
      · rcases List.mem_cons.mp ihm with he | h2
        · rw [he]; exact List.mem_cons_of_mem _ (List.mem_cons_self _ _)
        · exact List.mem_cons_of_mem _ (List.mem_cons_of_mem _ h2)
      · intro t ht
        have hxb := ihb x (List.mem_cons_self _ _)
        rcases List.mem_cons.mp ht with rfl | h2
        · omega
        · rcases List.mem_cons.mp h2 with rfl | h3
          · exact hxb
          · exact ihb t (List.mem_cons_of_mem _ h3)
    · rw [hstep, if_neg hgt]
      obtain ⟨ihm, ihb⟩ := ih c
      constructor
      · rcases List.mem_cons.mp ihm with he | h2
        · rw [he]; exact List.mem_cons_self _ _
        · exact List.mem_cons_of_mem _ (List.mem_cons_of_mem _ h2)
      · intro t ht
        have hcb := ihb c (List.mem_cons_self _ _)
        rcases List.mem_cons.mp ht with rfl | h2
        · exact hcb
        · rcases List.mem_cons.mp h2 with rfl | h3
          · omega
          · exact ihb t (List.mem_cons_of_mem _ h3)

/-- A widget payload whose flattened strings pass the non-whitespace
filter is truthy. -/
theorem truthy_of_filter_ne_nil {w : WVal} {s0 : String} {srest : List String}
    (h : (flatten_strings w).filter (fun x => decide (pyStrip x ≠ "")) =
      s0 :: srest) :
    w.truthy = true := by
  cases w with
  | str s =>
    rw [WVal.truthy]
    by_cases hs : s = ""
    · subst hs
      rw [flatten_strings] at h
      simp only [List.filter] at h
      rw [show pyStrip "" = "" from rfl] at h
      simp at h
    · simp [hs]
  | num i => rw [flatten_strings] at h; cases h
  | null => rw [flatten_strings] at h; cases h
  | list l =>
    cases l with
    | nil =>
      rw [flatten_strings] at h
      rw [flattenStringsList] at h
      cases h
    | cons x xs => rw [WVal.truthy]; simp

/-- C4: for every node where rule 1 does not fire and whose recursively
flattened `widgets_values` contains a non-whitespace-only string, the
String Resolver returns the stripped longest such string — the chosen
string is a member of the filtered flattening and its raw length bounds
every other member's. -/
theorem C4_longest_widget_string (wf : Workflow) (n : Node) (v : LVal)
    (w : WVal) (s0 : String) (srest : List String)
    (hid : n.id = some v)
    (hr1 : rule1Step n = .ok none)
    (hw : n.widgets_values = some w)
    (hstrs : (flatten_strings w).filter (fun x => decide (pyStrip x ≠ "")) =
      s0 :: srest) :
    extract_string_value_recursive wf n =
      .ok (some (pyStrip (pymaxLen s0 srest))) ∧
    pymaxLen s0 srest ∈ s0 :: srest ∧
    ∀ t ∈ s0 :: srest, t.length ≤ (pymaxLen s0 srest).length := by
  have htr : w.truthy = true := truthy_of_filter_ne_nil hstrs
  have hrule2 : rule2Step n = some (pyStrip (pymaxLen s0 srest)) := by
    rw [rule2Step, hw]
    simp only []
    rw [if_pos htr, hstrs]
  refine ⟨?_, (pymaxLen_spec srest s0).1, (pymaxLen_spec srest s0).2⟩
  have e1 : resolverFuel wf = ((resolverIds wf).length + 1) + 1 := rfl
  have hh : helper wf (resolverFuel wf) n [] =
      some (.ok (some (pyStrip (pymaxLen s0 srest)), [v])) := by
    rw [e1, helper_succ, hid]
    simp only []
    rw [if_neg (List.not_mem_nil v), hr1]
    simp only []
    rw [hrule2]
  rw [extract_string_value_recursive, hh]

/-- C4 witness: on the spec's example the resolver returns the longer
string "a cat, highly detailed, 4k". -/
theorem C4_witness :
    extract_string_value_recursive witC4wf witC4node =
      .ok (some (pyStrip (pymaxLen "neg" ["a cat, highly detailed, 4k"]))) ∧
    pyStrip (pymaxLen "neg" ["a cat, highly detailed, 4k"]) =
      "a cat, highly detailed, 4k" :=
  ⟨(C4_longest_widget_string witC4wf witC4node (.int 1)
      (.list [.str "neg", .str "a cat, highly detailed, 4k"])
      "neg" ["a cat, highly detailed, 4k"]
      (by rfl) (by rfl) (by rfl) (by rfl)).1,
    by rfl⟩

/-- C7: the Output-Node Locator equals the spec's first-argmax rule —
absent exactly when no node's type contains an image-save marker, and
otherwise the first candidate (in original node order) whose `order`
(missing read as 0) is greatest among all candidates. -/
theorem C7_locator_max_order_first_tie (wf : Workflow) :
    find_highest_order_saveimage wf = specLocate wf ∧
    (find_highest_order_saveimage wf = none ↔
      wf.nodes.filter isSaveType = []) ∧
    (∀ n, find_highest_order_saveimage wf = some n →
      n ∈ wf.nodes.filter isSaveType ∧
      ∀ m ∈ wf.nodes.filter isSaveType, m.orderD ≤ n.orderD) := by
  cases hc : wf.nodes.filter isSaveType with
  | nil =>
    have h1 : find_highest_order_saveimage wf = none := by
      rw [find_highest_order_saveimage, hc]
    have h2 : specLocate wf = none := by
      rw [specLocate, hc, firstArgmax]
      rfl
    refine ⟨by rw [h1, h2], ⟨fun _ => rfl, fun _ => h1⟩, ?_⟩
    intro n hn
    rw [h1] at hn
    cases hn
  | cons c rest =>
    have h1 : find_highest_order_saveimage wf =
        some (pymax Node.orderD c rest) := by
      rw [find_highest_order_saveimage, hc]
    have hfa : firstArgmax Node.orderD (c :: rest) =
        some (pymax Node.orderD c rest) :=
      (pymax_eq_firstArgmax Node.orderD rest c).symm
    have h2 : specLocate wf = some (pymax Node.orderD c rest) := by
      rw [specLocate, hc, hfa]
    refine ⟨by rw [h1, h2], ?_, ?_⟩
    · constructor
      · intro h
        rw [h1] at h
        cases h
      · intro h
        cases h
    · intro n hn
      rw [h1] at hn
      simp only [Option.some.injEq] at hn
      subst hn
      rw [firstArgmax] at hfa
      have hmem := List.mem_of_find?_eq_some hfa
      have hpred := List.find?_some hfa
      rw [List.all_eq_true] at hpred
      constructor
      · exact hmem
      · intro m hm
        have h3 := hpred m hm
        simp only [decide_eq_true_eq] at h3
        exact h3

/-- C7 witness: on `witC7wf` the locator agrees with the spec rule and,
with two candidates tied on the maximal order 5, picks the first of them
in node order. -/
theorem C7_witness :
    find_highest_order_saveimage witC7wf = specLocate witC7wf ∧
    specLocate witC7wf = some witC7a ∧
    witC7a ∈ witC7wf.nodes.filter isSaveType :=
  ⟨(C7_locator_max_order_first_tie witC7wf).1, by rfl,
    ((C7_locator_max_order_first_tie witC7wf).2.2 witC7a (by rfl)).1⟩

/-- C8: both upstream searches terminate within their fuel bound on every
workflow (cyclic ones included), a dequeued node whose id was already
seen is skipped without reprocessing, the String Resolver terminates
within its fuel bound, and its per-call visited set short-circuits an
already-visited node to no value. -/
theorem C8_visited_guard_terminates :
    (∀ (wf : Workflow) (start : Node),
      (bfsGenAux (posCheck wf) (posExpand wf)
        (bfsFuel wf start) [start] []).isSome) ∧
    (∀ (wf : Workflow) (start : Node),
      (bfsGenAux clipCheck (clipExpand wf)
        (bfsFuel wf start) [start] []).isSome) ∧
    (∀ (c : Node → Except String (Option (Option Node)))
      (e : Node → Except String (List Node)) (fuel : Nat) (n : Node)
      (q : List Node) (seen : List LVal) (v : LVal),
      n.id = some v → v ∈ seen →
      bfsGenAux c e (fuel + 1) (n :: q) seen = bfsGenAux c e fuel q seen) ∧
    (∀ (wf : Workflow) (n : Node),
      (helper wf (resolverFuel wf) n []).isSome) ∧
    (∀ (wf : Workflow) (fuel : Nat) (n : Node) (vis : List LVal) (v : LVal),
      n.id = some v → v ∈ vis →
      helper wf (fuel + 1) n vis = some (.ok (none, vis))) := by
  refine ⟨bfsPos_aux_isSome, bfsClip_aux_isSome, ?_, extract_helper_isSome, ?_⟩
  · intro c e fuel n q seen v hid hv
    simp only [bfsGenAux]
    rw [hid]
    simp only []
    rw [if_pos hv]
  · intro wf fuel n vis v hid hv
    rw [helper_succ, hid]
    simp only []
    rw [if_pos hv]

/-- C8 witness: on the cyclic two-node workflow `witC8wf` both searches
and the resolver terminate, and a node whose id is already in the
seen/visited set is skipped. -/
theorem C8_witness :
    (bfsGenAux (posCheck witC8wf) (posExpand witC8wf)
      (bfsFuel witC8wf witC8a) [witC8a] []).isSome ∧
    (bfsGenAux clipCheck (clipExpand witC8wf)
      (bfsFuel witC8wf witC8a) [witC8a] []).isSome ∧
    bfsGenAux (posCheck witC8wf) (posExpand witC8wf) 1 [witC8a] [.int 1] =
      bfsGenAux (posCheck witC8wf) (posExpand witC8wf) 0 [] [.int 1] ∧
    (helper witC8wf (resolverFuel witC8wf) witC8a []).isSome ∧
    helper witC8wf 1 witC8a [.int 1] = some (.ok (none, [.int 1])) :=
  ⟨C8_visited_guard_terminates.1 witC8wf witC8a,
    C8_visited_guard_terminates.2.1 witC8wf witC8a,
    C8_visited_guard_terminates.2.2.1 (posCheck witC8wf) (posExpand witC8wf)
      0 witC8a [] [.int 1] (.int 1) rfl (by simp),
    C8_visited_guard_terminates.2.2.2.1 witC8wf witC8a,
    C8_visited_guard_terminates.2.2.2.2 witC8wf 0 witC8a [.int 1] (.int 1)
      rfl (by simp)⟩

/-- Every successful pipeline result is either a truthy stripped prompt
with no reason, or no prompt with a reason. -/
theorem pipelineE_ok_shape {wf : Workflow} {pr : Option String × Option String}
    (h : pipelineE wf = .ok pr) :
    (∃ p, pr = (some p, none) ∧ p ≠ "" ∧ pyStrip p = p) ∨
    (∃ r, pr = (none, some r)) := by
  rw [pipelineE] at h
  cases h1 : find_highest_order_saveimage wf with
  | none =>
    rw [h1] at h
    simp only [Except.ok.injEq] at h
    exact Or.inr ⟨"no-saveimage", h.symm⟩
  | some save =>
    rw [h1] at h
    simp only [] at h
    cases h2 : find_input_link_id save "images" with
    | none =>
      rw [h2] at h
      simp only [Except.ok.injEq] at h
      exact Or.inr ⟨"no-saveimage-images-link", h.symm⟩
    | some lv =>
      rw [h2] at h
      simp only [] at h
      cases h3 : lv.truthy with
      | false =>
        rw [h3] at h
        simp only [Bool.not_false, if_true, Except.ok.injEq] at h
        exact Or.inr ⟨"no-saveimage-images-link", h.symm⟩
      | true =>
        rw [h3] at h
        simp only [Bool.not_true, Bool.false_eq_true, if_false] at h
        cases h4 : dictGet (build_link_map wf) lv with
        | none => rw [h4] at h; cases h
        | some tup =>
          rw [h4] at h
          simp only [] at h
          cases h5 : get_node_by_id wf tup.src_id with
          | none =>
            rw [h5] at h
            simp only [Except.ok.injEq] at h
            exact Or.inr ⟨"no-start-from-saveimage", h.symm⟩
          | some start =>
            rw [h5] at h
            simp only [] at h
            cases h6 : bfs_upstream_to_positive_source wf start with
            | error e => rw [h6] at h; cases h
            | ok o6 =>
              rw [h6] at h
              cases o6 with
              | none =>
                simp only [Except.ok.injEq] at h
                exact Or.inr ⟨"no-positive-found", h.symm⟩
              | some pos_src =>
                simp only [] at h
                cases h7 : find_upstream_clip_encode wf pos_src with
                | error e => rw [h7] at h; cases h
                | ok o7 =>
                  rw [h7] at h
                  cases o7 with
                  | none =>
                    simp only [Except.ok.injEq] at h
                    exact Or.inr ⟨"no-clip-encode-upstream", h.symm⟩
                  | some clip_node =>
                    simp only [] at h
                    cases h8 : extract_string_value_recursive wf clip_node with
                    | error e => rw [h8] at h; cases h
                    | ok prompt =>
                      rw [h8] at h
                      simp only [] at h
                      cases h9 : truthyRes prompt with
                      | false =>
                        rw [h9] at h
                        simp only [Bool.false_eq_true, if_false,
                          Except.ok.injEq] at h
                        exact Or.inr ⟨"no-prompt-resolved", h.symm⟩
                      | true =>
                        rw [h9] at h
                        simp only [if_true, Except.ok.injEq] at h
                        cases hpv : prompt with
                        | none => rw [hpv] at h9; cases h9
                        | some p =>
                          rw [hpv] at h9 h8
                          rw [truthyRes] at h9
                          left
                          refine ⟨p, ?_, ?_, extract_stripped h8⟩
                          · rw [← h, hpv]
                          · simpa using h9

/-- C9: the per-document entry point returns exactly one of the pair —
either a resolved prompt with no failure reason, or no prompt with a
failure reason — and any returned prompt is a non-empty string equal to
its own whitespace-trim; an empty resolution is reported as
"no-prompt-resolved" by the pipeline rather than returned as success. -/
theorem C9_entry_exclusive_and_trimmed (wf : Workflow) :
    (∃ p, extract_final_positive_prompt_from_workflow wf = (some p, none) ∧
      p ≠ "" ∧ pyStrip p = p) ∨
    (∃ r, extract_final_positive_prompt_from_workflow wf = (none, some r)) := by
  cases hp : pipelineE wf with
  | error e =>
    refine Or.inr ⟨"error:" ++ e, ?_⟩
    rw [extract_final_positive_prompt_from_workflow, hp]
  | ok pr =>
    have hshape := pipelineE_ok_shape hp
    have hv : extract_final_positive_prompt_from_workflow wf = pr := by
      rw [extract_final_positive_prompt_from_workflow, hp]
    rcases hshape with ⟨p, hpr, hne, hst⟩ | ⟨r, hpr⟩
    · exact Or.inl ⟨p, by rw [hv, hpr], hne, hst⟩
    · exact Or.inr ⟨r, by rw [hv, hpr]⟩

/-- C10: whether a "text" slot counts as linked is decided by the
presence of its `link` attribute, not its value — for every text-encoder
node whose first "text" slot carries a `link` key with the JSON value
null, the String Resolver skips rule 1's inline-widget preference and
computes the rule-2-onward result `topNoRule1`, even though the slot is
connected to no link record. -/
theorem C10_null_link_counts_as_linked (wf : Workflow) (n : Node)
    (hclip : strIn "CLIPTextEncode" n.typeD = true)
    (hnull : (n.inputs.find? (fun i => decide (i.name = some "text"))).bind
      InputSlot.link = some LVal.null) :
    extract_string_value_recursive wf n = topNoRule1 wf n := by
  have hlinked : textLinked n = true := by
    rw [textLinked]
    cases hf : n.inputs.find? (fun i => decide (i.name = some "text")) with
    | none => rw [hf] at hnull; cases hnull
    | some i =>
      rw [hf] at hnull
      simp only [Option.bind] at hnull
      simp only []
      rw [hnull]
      rfl
  have hr1 : rule1Step n = .ok none := by
    rw [rule1Step, if_pos hclip]
    simp only [hlinked, Bool.not_true, Bool.false_and, Bool.false_eq_true,
      if_false]
  have e1 : resolverFuel wf = ((resolverIds wf).length + 1) + 1 := rfl
  rw [extract_string_value_recursive, e1, helper_succ, topNoRule1]
  cases hid : n.id with
  | none => rfl
  | some v =>
    simp only []
    rw [if_neg (List.not_mem_nil v), hr1]
    simp only []
    cases hr2 : rule2Step n with
    | some s => rfl
    | none =>
      simp only []
      cases hf1 : followInputs wf ((resolverIds wf).length + 1)
          (n.inputs.filter fun i =>
            decide (i.name = some "text") && i.link.isSome) [v] with
      | none => rfl
      | some r1 =>
        cases r1 with
        | error e => rfl
        | ok pr =>
          obtain ⟨res, vis2⟩ := pr
          cases res with
          | some s => rfl
          | none =>
            simp only []
            cases hf2 : followInputs wf ((resolverIds wf).length + 1)
                (n.inputs.filter fun i =>
                  decide (i.type = some "STRING") && i.link.isSome) vis2 with
            | none => rfl
            | some r2 =>
              cases r2 with
              | error e => rfl
              | ok pr2 => rfl

/-- C10 witness: on `witC10wf`, whose "text" slot has `link` null, the
resolver skips rule 1 (which would return "short") and rule 2 returns the
longest string "longerstring". -/
theorem C10_witness :
    extract_string_value_recursive witC10wf witC10node =
      topNoRule1 witC10wf witC10node ∧
    extract_string_value_recursive witC10wf witC10node =
      .ok (some "longerstring") ∧
    rule2Step witC10node = some "longerstring" :=
  ⟨C10_null_link_counts_as_linked witC10wf witC10node (by rfl) (by rfl),
    by rfl, by rfl⟩
